import Mathlib

/-!
# Verification of the crossword CSP engine (`generate.py`)

Shallow embedding of the constraint-satisfaction engine of the repository:
node consistency (`enforce_node_consistency`), arc consistency
(`revise` / `ac3`), the assignment predicates (`assignment_complete` /
`consistent`), the search heuristics (`select_unassigned_variable` /
`order_domain_values`) and the backtracking search (`backtrack` / `solve`).

Modelling conventions:
* Words are lists of characters; Python's `w[i]` becomes `List.getD i`
  (the embedding is total; out-of-range indices never arise for the
  well-formed puzzle models considered by the theorems).
* Python sets and dicts are modelled by lists and association lists; a
  list order stands in for one possible set/dict iteration order (Python's
  set iteration order for `Variable` objects is hash-randomized, so every
  order is a possible run).
* The puzzle model (`crossword.py`, an external collaborator per the spec)
  is an abstract input: a list of variables, an overlap table, and the
  vocabulary; `neighbors` is derived from the overlap table exactly as in
  the collaborator.
* `ac3`'s worklist loop is given explicit fuel (`ac3Go`); `ac3Run` supplies
  a fuel bound that is proved sufficient (the termination claim), so the
  fuel is an implementation detail, not a semantic restriction.
* `backtrack` returns one of three Python values: `None`, `False`, or an
  assignment dict.  These are modelled faithfully by `BTRes.noSol`,
  `BTRes.falseSig`, `BTRes.found`.  The search recursion carries fuel;
  `solve` uses `variables.length + 1` levels, which is what the actual
  recursion depth consumes.
-/

/-- A word slot: starting row, starting column, direction, length
(mirrors `Variable` of the puzzle model: equality iff all attributes
match). `down = true` stands for the DOWN direction. -/
structure Slot where
  row : Nat
  col : Nat
  down : Bool
  len : Nat
deriving DecidableEq, Repr

/-- A candidate word, as its list of characters. -/
abbrev Word := List Char

/-- The puzzle model interface consumed by the engine (spec §6):
variables, the pairwise overlap table, and the vocabulary. -/
structure Puzzle where
  vars : List Slot
  ov : Slot → Slot → Option (Nat × Nat)
  words : List Word

/-- The Domain Store: mapping from each variable to its current candidate
word list (`self.domains`). -/
abbrev Domains := List (Slot × List Word)

/-- A partial assignment: mapping from variables to chosen words
(a Python dict in insertion order). -/
abbrev Assign := List (Slot × Word)

/-- `self.domains[v]` (empty for an absent key; keys are always present
in the states the engine builds). -/
def domGet : Domains → Slot → List Word
  | [], _ => []
  | e :: rest, v => if e.1 = v then e.2 else domGet rest v

/-- `self.domains[v] = ws` (updates an existing key in place; never
inserts, since the store's key set is fixed at construction). -/
def domSet : Domains → Slot → List Word → Domains
  | [], _, _ => []
  | e :: rest, v, ws =>
    if e.1 = v then (e.1, ws) :: domSet rest v ws else e :: domSet rest v ws

/-- `assignment[v]` lookup. -/
def aGet : Assign → Slot → Option Word
  | [], _ => none
  | e :: rest, v => if e.1 = v then some e.2 else aGet rest v

/-- `v in assignment`. -/
def aHas : Assign → Slot → Bool
  | [], _ => false
  | e :: rest, v => e.1 = v || aHas rest v

/-- Rebind an existing key. -/
def aUpd : Assign → Slot → Word → Assign
  | [], _, _ => []
  | e :: rest, v, w =>
    if e.1 = v then (e.1, w) :: aUpd rest v w else e :: aUpd rest v w

/-- `assignment[v] = w`: dict update (replaces an existing binding,
otherwise appends, as Python dicts preserve insertion order). -/
def aSet (a : Assign) (v : Slot) (w : Word) : Assign :=
  if aHas a v then aUpd a v w else a ++ [(v, w)]

/-- Python truthiness of `assignment[v]`: present and non-empty. -/
def truthyAt (a : Assign) (v : Slot) : Bool :=
  match aGet a v with
  | some w => !w.isEmpty
  | none => false

/-- `self.crossword.neighbors(v)`: all other variables with a defined
overlap with `v` (derived from the overlap table, as in the model). -/
def neighbors (p : Puzzle) (v : Slot) : List Slot :=
  p.vars.filter (fun z => z ≠ v ∧ (p.ov v z).isSome)

/-- The initial worklist of `ac3(arcs=None)`: every ordered pair of
distinct variables with a defined overlap. -/
def allArcs (p : Puzzle) : List (Slot × Slot) :=
  p.vars.flatMap (fun x =>
    (p.vars.filter (fun y => y ≠ x ∧ (p.ov x y).isSome)).map (fun y => (x, y)))

/-- `CrosswordCreator.__init__`: every variable starts with the full
vocabulary. -/
def initDoms (p : Puzzle) : Domains :=
  p.vars.map (fun v => (v, p.words))

/-- `enforce_node_consistency`: remove from each domain the words whose
length differs from the variable's length. -/
def nodeCons (d : Domains) : Domains :=
  d.map (fun e => (e.1, e.2.filter (fun w => w.length = e.1.len)))

/-- `revise(x, y)`: remove from `x`'s domain every word with no
compatible word in `y`'s domain at the overlap indices; no-op when no
overlap is defined.  Returns (whether a revision was made, new store). -/
def revise (p : Puzzle) (d : Domains) (x y : Slot) : Bool × Domains :=
  match p.ov x y with
  | none => (false, d)
  | some (m, n) =>
    let dx := domGet d x
    let dy := domGet d y
    let keep := dx.filter (fun w => dy.any (fun w2 => w.getD m '?' = w2.getD n '?'))
    (decide (keep.length ≠ dx.length), domSet d x keep)

/-- The `ac3` worklist loop, with explicit fuel.  `one = true` is the
restricted single-pass mode (`dom=True`): revised arcs are not
re-enqueued.  `none` means the fuel ran out (never happens for the bound
`acBound`, see `ac3_fuel_sufficient`). -/
def ac3Go (p : Puzzle) : Nat → List (Slot × Slot) → Domains → Bool → Option (Bool × Domains)
  | _, [], d, _ => some (true, d)
  | 0, _ :: _, _, _ => none
  | fuel + 1, (x, y) :: rest, d, one =>
    let r := revise p d x y
    if r.1 then
      if (domGet r.2 x).isEmpty then some (false, r.2)
      else
        let rest' := if one then rest
          else rest ++ ((neighbors p x).filter (fun z => z ≠ y)).map (fun z => (z, x))
        ac3Go p fuel rest' r.2 one
    else ac3Go p fuel rest r.2 one

/-- Total size of the Domain Store (for the termination bound). -/
def totalSize (d : Domains) : Nat :=
  (d.map (fun e => e.2.length)).sum

/-- Fuel that always suffices for one `ac3` propagation run. -/
def acBound (p : Puzzle) (arcs : List (Slot × Slot)) (d : Domains) : Nat :=
  totalSize d * (p.vars.length + 1) + arcs.length + 1

/-- `ac3(arcs)`: run the worklist loop with sufficient fuel.  The
default is unreachable (`ac3_fuel_sufficient`). -/
def ac3Run (p : Puzzle) (arcs : List (Slot × Slot)) (d : Domains) (one : Bool) :
    Bool × Domains :=
  (ac3Go p (acBound p arcs d) arcs d one).getD (false, d)

/-- `assignment_complete`: one entry per variable, every entry truthy. -/
def completeFn (p : Puzzle) (a : Assign) : Bool :=
  if a.length = p.vars.length then a.all (fun e => !e.2.isEmpty) else false

/-- One neighbor-check of `consistent`: for each assigned, truthy
neighbor `n` of `i`, the overlap characters must agree
(`assignment[n][x] == assignment[i][y]` for `(x, y) = overlaps[n, i]`). -/
def consistentNbrs (p : Puzzle) (a : Assign) (i : Slot) (wi : Word) : Bool :=
  (neighbors p i).all (fun n =>
    match aGet a n with
    | some wn =>
      if wn.isEmpty then true
      else
        match p.ov n i with
        | some (x, y) => wn.getD x '?' = wi.getD y '?'
        | none => true
    | none => true)

/-- The scan of `consistent`, carrying the `seen_values` accumulator. -/
def consistentGo (p : Puzzle) (a : Assign) (seen : List Word) : List (Slot × Word) → Bool
  | [] => true
  | (i, wi) :: rest =>
    if wi.isEmpty then consistentGo p a seen rest
    else if wi.length ≠ i.len then false
    else if seen.contains wi then false
    else if consistentNbrs p a i wi then consistentGo p a (seen ++ [wi]) rest
    else false

/-- `consistent(assignment)`: lengths match, no word used twice, all
assigned neighbor overlaps agree (falsy entries are skipped). -/
def consistentFn (p : Puzzle) (a : Assign) : Bool :=
  consistentGo p a [] a

/-- `select_unassigned_variable`: scan the variables, keeping the one
with the smallest domain; on a domain-size tie prefer a larger stored
neighbor count (the stored count `length_neigh` is only updated in the
strictly-smaller branch, exactly as in the code). -/
def selectGo (p : Puzzle) (d : Domains) (a : Assign) :
    List Slot → Option Slot → Nat → Nat → Option Slot
  | [], chosen, _, _ => chosen
  | i :: rest, chosen, best, bestNbr =>
    if (!a.isEmpty) && truthyAt a i then
      selectGo p d a rest chosen best bestNbr
    else
      match chosen with
      | none =>
        selectGo p d a rest (some i) (domGet d i).length (neighbors p i).length
      | some c =>
        let L := (domGet d i).length
        if L < best then
          selectGo p d a rest (some i) L (neighbors p i).length
        else if L = best then
          if bestNbr < (neighbors p i).length then
            selectGo p d a rest (some i) best bestNbr
          else
            selectGo p d a rest (some c) best bestNbr
        else
          selectGo p d a rest (some c) best bestNbr

/-- `select_unassigned_variable(assignment)`. -/
def selectUV (p : Puzzle) (d : Domains) (a : Assign) : Option Slot :=
  selectGo p d a p.vars none 0 0

/-- Word order used by Python's tuple sort (`sorted(zip(values, domain))`):
code-point lexicographic order on strings. -/
def wordLt : Word → Word → Bool
  | [], [] => false
  | [], _ :: _ => true
  | _ :: _, [] => false
  | c :: cs, c' :: cs' => if c = c' then wordLt cs cs' else decide (c < c')

/-- Order on `(value, word)` pairs: ascending value, ties by word. -/
def pairLe (x y : Nat × Word) : Bool :=
  if x.1 = y.1 then !wordLt y.2 x.2 else decide (x.1 < y.1)

/-- Insert into a `pairLe`-sorted list (stable). -/
def insertPair (x : Nat × Word) : List (Nat × Word) → List (Nat × Word)
  | [] => [x]
  | y :: ys => if pairLe y x then y :: insertPair x ys else x :: y :: ys

/-- Stable insertion sort by `pairLe` (equals Python's `sorted` on the
distinct pairs produced here). -/
def sortPairs : List (Nat × Word) → List (Nat × Word)
  | [] => []
  | x :: xs => insertPair x (sortPairs xs)

/-- The probe loop of `order_domain_values`: for each candidate word,
restrict `var`'s domain to it, run the restricted (`dom=True`)
single-pass `ac3` over the arcs (neighbor, var), and if it succeeds,
record the total reduction of unassigned neighbors' domains (measured
against the pre-call sizes).  Neighbor domains are NOT restored between
probes (exactly as in the code); the store is threaded through. -/
def odvGo (p : Puzzle) (var : Slot) (a : Assign) (nbrs : List Slot)
    (orig : Domains) : List Word → Domains → List (Nat × Word) × Domains
  | [], d => ([], d)
  | w :: rest, d =>
    let d1 := domSet d var [w]
    let r := ac3Run p (nbrs.map (fun n => (n, var))) d1 true
    if r.1 then
      let v := (nbrs.filter (fun j => !truthyAt a j)).foldl
        (fun acc j => acc + ((domGet orig j).length - (domGet r.2 j).length)) 0
      let rec2 := odvGo p var a nbrs orig rest r.2
      ((v, w) :: rec2.1, rec2.2)
    else
      odvGo p var a nbrs orig rest r.2

/-- `order_domain_values(var, assignment)`: probe every candidate,
restore the neighbor domains and `var`'s domain, and return the
candidates that survived their probe, sorted by ascending reduction
count (ties by word).  Also returns the final Domain Store. -/
def orderDV (p : Puzzle) (var : Slot) (a : Assign) (d : Domains) :
    List Word × Domains :=
  let origVar := domGet d var
  let nbrs := neighbors p var
  let probed := odvGo p var a nbrs d origVar d
  let restored := nbrs.foldl (fun acc i => domSet acc i (domGet d i)) probed.2
  let final := domSet restored var origVar
  ((sortPairs probed.1).map (fun e => e.2), final)

/-- The three values `backtrack` can return: `None`, `False`, or an
assignment dict. -/
inductive BTRes where
  | noSol : BTRes
  | falseSig : BTRes
  | found : Assign → BTRes
deriving DecidableEq, Repr

/-- The candidate loop of `backtrack`: try each value in order; on an
inconsistent extension or a failed recursion, restore the snapshot
(assignment and Domain Store) and continue; a failed propagation
returns `False` for the whole invocation at once.  `k` is the recursive
call into `backtrack` (one fuel level down). -/
def btLoop (p : Puzzle) (k : Domains → Assign → Option BTRes) (d : Domains)
    (a : Assign) (var : Slot) : List Word → Option BTRes
  | [] => some .noSol
  | v :: rest =>
    let a' := aSet a var v
    if consistentFn p a' then
      let d1 := domSet d var [v]
      let arcs := (neighbors p var).map (fun n => (n, var))
      let r := ac3Run p arcs d1 false
      if r.1 then
        match k r.2 a' with
        | none => none
        | some (.found m) =>
          if m.isEmpty then btLoop p k d a var rest else some (.found m)
        | some _ => btLoop p k d a var rest
      else some .falseSig
    else btLoop p k d a var rest

/-- `backtrack(assignment)`.  Outer `none` = fuel exhausted (the search
recursion is one level per variable; `solve` supplies enough fuel). -/
def btGo (p : Puzzle) : Nat → Domains → Assign → Option BTRes
  | 0, _, _ => none
  | fuel + 1, d, a =>
    if completeFn p a then some (.found a)
    else
      match selectUV p d a with
      | none => none
      | some var => btLoop p (btGo p fuel) d a var (orderDV p var a d).1

/-- `solve()`: node consistency, one full arc-consistency pass (its
boolean result is discarded, as in the code), then backtracking from the
empty assignment. -/
def solve (p : Puzzle) : Option BTRes :=
  let d0 := nodeCons (initDoms p)
  let d1 := (ac3Run p (allArcs p) d0 false).2
  btGo p (p.vars.length + 1) d1 []

/-! ## Concrete puzzle models used as inputs to the engine -/

/-- Slot `A` of the triangle puzzle `P1`. -/
def sA : Slot := ⟨0, 0, false, 2⟩

/-- Slot `B` of the triangle puzzle `P1`. -/
def sB : Slot := ⟨1, 0, false, 2⟩

/-- Slot `C` of the triangle puzzle `P1`. -/
def sC : Slot := ⟨2, 0, false, 2⟩

/-- Overlap table of `P1`: a triangle `A[0]=B[0]`, `B[0]=C[0]`,
`A[0]=C[1]` (symmetric, indices in range). -/
def ovP1 : Slot → Slot → Option (Nat × Nat) := fun x y =>
  if x = sA ∧ y = sB then some (0, 0)
  else if x = sB ∧ y = sA then some (0, 0)
  else if x = sB ∧ y = sC then some (0, 0)
  else if x = sC ∧ y = sB then some (0, 0)
  else if x = sA ∧ y = sC then some (0, 1)
  else if x = sC ∧ y = sA then some (1, 0)
  else none

/-- Unsatisfiable triangle puzzle: three length-2 slots in a cycle with
one twisted overlap, vocabulary `{"xy", "yx"}`.  The initial domains are
already arc consistent, yet no assignment satisfies all three overlap
constraints, so the first tentative assignment makes the full
propagation inside `backtrack` empty a domain. -/
def P1 : Puzzle := ⟨[sA, sB, sC], ovP1, ["xy".toList, "yx".toList]⟩

/-- Slot `D` (length 5) of puzzle `P2`. -/
def tD : Slot := ⟨0, 0, false, 5⟩

/-- Slot `A` (length 6) of puzzle `P2`. -/
def tA : Slot := ⟨1, 0, false, 6⟩

/-- Slot `B` (length 2) of puzzle `P2`. -/
def tB : Slot := ⟨2, 0, false, 2⟩

/-- Slot `C` (length 3) of puzzle `P2`. -/
def tC : Slot := ⟨3, 0, false, 3⟩

/-- Slot `F` (length 4) of puzzle `P2`. -/
def tF : Slot := ⟨4, 0, false, 4⟩

/-- Overlap table of `P2`: a path `D–A–B` feeding the cycle `B–C–F`
(`D[0]=A[0]`, `A[1]=B[0]`, `B[0]=C[0]`, `C[0]=F[0]`, `B[0]=F[1]`). -/
def ovP2 : Slot → Slot → Option (Nat × Nat) := fun x y =>
  if x = tD ∧ y = tA then some (0, 0)
  else if x = tA ∧ y = tD then some (0, 0)
  else if x = tA ∧ y = tB then some (1, 0)
  else if x = tB ∧ y = tA then some (0, 1)
  else if x = tB ∧ y = tC then some (0, 0)
  else if x = tC ∧ y = tB then some (0, 0)
  else if x = tC ∧ y = tF then some (0, 0)
  else if x = tF ∧ y = tC then some (0, 0)
  else if x = tB ∧ y = tF then some (0, 1)
  else if x = tF ∧ y = tB then some (1, 0)
  else none

/-- Vocabulary of `P2` (lengths segregate the slots' domains). -/
def vocab2 : List Word :=
  ["xaaaa".toList, "waaaa".toList, "zaaaa".toList,
   "xxaaaa".toList, "xyaaaa".toList, "wyaaaa".toList, "zyaaaa".toList,
   "xy".toList, "yx".toList, "xz".toList, "yz".toList,
   "xaa".toList, "yaa".toList, "xab".toList, "yab".toList,
   "xyaa".toList, "yxaa".toList, "yyaa".toList, "xyab".toList]

/-- Satisfiable puzzle on which the search nonetheless runs, mid-search,
into a propagation failure along its first branch (`D = "xaaaa"`,
`A = "xxaaaa"` collapses the cycle `B–C–F`), recovers at the top level,
and finds the solution along `D = "zaaaa"`. -/
def P2 : Puzzle := ⟨[tD, tA, tB, tC, tF], ovP2, vocab2⟩

/-- `P2`'s Domain Store after node consistency (the full arc-consistency
pass of `solve` removes nothing from it). -/
def domsP2 : Domains := nodeCons (initDoms P2)

/-- The Domain Store of the depth-1 call of `backtrack` on `P2` along
the branch `D = "xaaaa"` (after the top-level tentative assignment has
been propagated). -/
def domsP2a : Domains :=
  [(tD, ["xaaaa".toList]), (tA, ["xxaaaa".toList, "xyaaaa".toList]),
   (tB, ["xy".toList, "yx".toList, "xz".toList, "yz".toList]),
   (tC, ["xaa".toList, "yaa".toList, "xab".toList, "yab".toList]),
   (tF, ["xyaa".toList, "yxaa".toList, "yyaa".toList, "xyab".toList])]

/-- The complete assignment `solve` finds on `P2`. -/
def solP2 : Assign :=
  [(tD, "zaaaa".toList), (tA, "zyaaaa".toList), (tF, "yyaa".toList),
   (tB, "yx".toList), (tC, "yaa".toList)]

/-- Slots of the variable-selection puzzle `P3`. -/
def uA : Slot := ⟨0, 0, false, 2⟩

/-- Slot `B` of `P3` (degree 3). -/
def uB : Slot := ⟨1, 0, false, 2⟩

/-- Slot `C` of `P3` (degree 2). -/
def uC : Slot := ⟨2, 0, false, 2⟩

/-- Slot `P` of `P3` (assigned). -/
def uP : Slot := ⟨3, 0, false, 2⟩

/-- Slot `Q` of `P3` (assigned). -/
def uQ : Slot := ⟨4, 0, false, 2⟩

/-- Symmetric edge test for building small overlap tables. -/
def edge (x y a b : Slot) : Bool := (x = a ∧ y = b) ∨ (x = b ∧ y = a)

/-- Overlap table of `P3`: edges `A–P`, `B–P`, `B–Q`, `B–C`, `C–Q`,
all with overlap `(0, 0)`. -/
def ovP3 : Slot → Slot → Option (Nat × Nat) := fun x y =>
  if edge x y uA uP ∨ edge x y uB uP ∨ edge x y uB uQ ∨ edge x y uB uC ∨
      edge x y uC uQ
  then some (0, 0) else none

/-- Puzzle exercising `select_unassigned_variable`: unassigned slots
`A`, `B`, `C` all have domain size 2; degrees are 1, 3, 2. -/
def P3 : Puzzle := ⟨[uA, uB, uC, uP, uQ], ovP3, []⟩

/-- A Domain Store for `P3` giving each unassigned slot two candidates. -/
def domsP3 : Domains :=
  [(uA, ["aa".toList, "ab".toList]), (uB, ["ba".toList, "bb".toList]),
   (uC, ["ca".toList, "cb".toList]), (uP, ["pa".toList]), (uQ, ["qa".toList])]

/-- The assignment for `P3`: `P` and `Q` already hold words. -/
def aP3 : Assign := [(uP, "pa".toList), (uQ, "qa".toList)]

/-- The single slot of puzzle `P9` (length 3). -/
def w9 : Slot := ⟨0, 0, false, 3⟩

/-- Puzzle whose vocabulary has no word of the required length: node
consistency empties the slot's domain. -/
def P9 : Puzzle := ⟨[w9], fun _ _ => none, ["ab".toList]⟩

/-- `P9`'s Domain Store after node consistency and the (no-op) full
arc-consistency pass: the sole domain is empty. -/
def domsP9 : Domains := [(w9, [])]

/-- The single slot of the trivially solvable puzzle `PT`. -/
def y1 : Slot := ⟨0, 0, false, 2⟩

/-- One slot, one fitting word: `solve` finds `{y1 ↦ "ab"}`. -/
def PT : Puzzle := ⟨[y1], fun _ _ => none, ["ab".toList]⟩

/-! ## C1: the failure signal of the search -/

/-- C1.  REFUTED (code bug): on the unsatisfiable puzzle `P1` — the
first conjunct checks that no choice of vocabulary words for the three
slots passes the consistency check — `solve()` returns the Python value
`False` (from `backtrack`'s `return False` on a failed propagation,
line 263 of `generate.py`), not `None`.  This contradicts `backtrack`'s
own docstring ("If no assignment is possible, return None") and the
`assignment is None` test in `main`. -/
theorem solve_unsat_returns_false_not_none :
    (∀ wa ∈ P1.words, ∀ wb ∈ P1.words, ∀ wc ∈ P1.words,
      consistentFn P1 [(sA, wa), (sB, wb), (sC, wc)] = false) ∧
    solve P1 = some BTRes.falseSig ∧ solve P1 ≠ some BTRes.noSol := by
  refine ⟨by decide, by decide, by decide⟩

/-! ## C2: scope of a mid-search propagation failure -/

/-- `P2`'s Domain Store after `solve`'s preprocessing (node consistency
plus the full arc-consistency pass, which removes nothing here). -/
def domsP2pre : Domains := (ac3Run P2 (allArcs P2) domsP2 false).2

/-- C2 counterexample.  The claim "the entire search halts immediately
with failure; no alternative candidate at any ancestor level is tried
afterwards" is false: on `P2` the depth-1 recursive call of the search —
conjuncts 2–4 identify it as exactly the sub-call `solve` makes for the
top level's first candidate `"xaaaa"` — returns the propagation-failure
signal `False`, and yet `solve` goes on to try the top level's next
candidate `"zaaaa"` and returns a complete assignment. -/
theorem midsearch_failure_does_not_halt_search :
    solve P2 = some (BTRes.found solP2) ∧
    (orderDV P2 tD [] domsP2pre).1 = ["xaaaa".toList, "zaaaa".toList] ∧
    ac3Run P2 ((neighbors P2 tD).map (fun n => (n, tD)))
      (domSet domsP2pre tD ["xaaaa".toList]) false = (true, domsP2a) ∧
    aSet [] tD "xaaaa".toList = [(tD, "xaaaa".toList)] ∧
    btGo P2 5 domsP2a [(tD, "xaaaa".toList)] = some BTRes.falseSig := by
  refine ⟨by decide, by decide, by decide, by decide, by decide⟩

/-- C2 as amended: when the arc-consistency propagation run after a
tentative assignment fails, the *current* `backtrack` invocation
returns the value `False` immediately — the remaining candidates at
this level (`rest`) are never tried — but ancestors receive that
`False` as an ordinary branch failure and continue with their own
alternatives (see the counterexample). -/
theorem propagation_failure_aborts_current_level_only (p : Puzzle)
    (k : Domains → Assign → Option BTRes) (d : Domains) (a : Assign)
    (var : Slot) (v : Word) (rest : List Word)
    (hcons : consistentFn p (aSet a var v) = true)
    (hfail : (ac3Run p ((neighbors p var).map (fun n => (n, var)))
      (domSet d var [v]) false).1 = false) :
    btLoop p k d a var (v :: rest) = some BTRes.falseSig := by
  simp only [btLoop, hcons, hfail]
  simp

/-- Witness for the amended C2, at the depth-1 moment of `P2`'s search
where the propagation failure actually occurs. -/
theorem propagation_failure_aborts_current_level_only_witness :
    consistentFn P2 (aSet [(tD, "xaaaa".toList)] tA "xxaaaa".toList) = true ∧
    (ac3Run P2 ((neighbors P2 tA).map (fun n => (n, tA)))
      (domSet domsP2a tA ["xxaaaa".toList]) false).1 = false ∧
    btLoop P2 (btGo P2 4) domsP2a [(tD, "xaaaa".toList)] tA
      ["xxaaaa".toList] = some BTRes.falseSig :=
  ⟨by decide, by decide,
    propagation_failure_aborts_current_level_only P2 (btGo P2 4) domsP2a
      [(tD, "xaaaa".toList)] tA "xxaaaa".toList [] (by decide) (by decide)⟩

/-! ## C3: the variable-selection heuristic -/

/-- C3.  REFUTED (code bug): in `P3` the unassigned slots `A`, `B`, `C`
all have domain size 2 and degrees 1, 3, 2; scanned in that order,
`select_unassigned_variable` returns `C` (degree 2) even though `B`
(degree 3) is an unassigned slot of equal minimal domain size with a
strictly larger neighbor count.  The stored tie-break count
`length_neigh` is not updated when the tie branch switches the chosen
variable, contradicting the docstring "If there is a tie, choose the
variable with the highest degree". -/
theorem select_violates_degree_tiebreak :
    selectUV P3 domsP3 aP3 = some uC ∧
    truthyAt aP3 uB = false ∧ truthyAt aP3 uC = false ∧
    (domGet domsP3 uB).length = 2 ∧ (domGet domsP3 uC).length = 2 ∧
    (domGet domsP3 uA).length = 2 ∧
    (neighbors P3 uB).length = 3 ∧ (neighbors P3 uC).length = 2 := by
  refine ⟨by decide, by decide, by decide, by decide, by decide, by decide,
    by decide, by decide⟩

/-! ## Basic lemmas about the Domain Store -/

/-- The key list of a Domain Store. -/
def keysD (d : Domains) : List Slot := d.map Prod.fst

theorem keysD_domSet (d : Domains) (v : Slot) (ws : List Word) :
    keysD (domSet d v ws) = keysD d := by
  induction d with
  | nil => rfl
  | cons e rest ih =>
    by_cases h : e.1 = v <;> simp [keysD, domSet, h, ih] <;>
      simpa [keysD] using ih

theorem domGet_absent (d : Domains) (v : Slot) (h : v ∉ keysD d) :
    domGet d v = [] := by
  induction d with
  | nil => rfl
  | cons e rest ih =>
    simp only [keysD, List.map_cons, List.mem_cons, not_or] at h
    simp only [domGet, if_neg (Ne.symm h.1)]
    exact ih h.2

theorem domSet_absent (d : Domains) (v : Slot) (ws : List Word)
    (h : v ∉ keysD d) : domSet d v ws = d := by
  induction d with
  | nil => rfl
  | cons e rest ih =>
    simp only [keysD, List.map_cons, List.mem_cons, not_or] at h
    simp only [domSet, if_neg (Ne.symm h.1)]
    rw [ih h.2]

theorem domGet_domSet_self (d : Domains) (v : Slot) (ws : List Word)
    (h : v ∈ keysD d) : domGet (domSet d v ws) v = ws := by
  induction d with
  | nil => simp [keysD] at h
  | cons e rest ih =>
    simp only [keysD, List.map_cons, List.mem_cons] at h
    by_cases he : e.1 = v
    · simp [domGet, domSet, he]
    · have h' : v ∈ keysD rest := h.resolve_left (fun hh => he hh.symm)
      simp only [domSet, if_neg he, domGet]
      exact ih h'

theorem domGet_domSet_ne (d : Domains) (v u : Slot) (ws : List Word)
    (h : u ≠ v) : domGet (domSet d v ws) u = domGet d u := by
  induction d with
  | nil => rfl
  | cons e rest ih =>
    by_cases he : e.1 = v
    · have he2 : e.1 ≠ u := by rw [he]; exact Ne.symm h
      simp only [domSet, if_pos he, domGet, if_neg he2]
      simpa [he, if_neg (Ne.symm h)] using ih
    · by_cases he3 : e.1 = u
      · simp only [domSet, if_neg he, domGet, if_pos he3]
      · simp only [domSet, if_neg he, domGet, if_neg he3]
        exact ih

/-- `domGet` after a `domSet` at the same key, without a presence
hypothesis: an absent key stays absent. -/
theorem domGet_domSet_self' (d : Domains) (v : Slot) (ws : List Word) :
    domGet (domSet d v ws) v = ws ∨
      (v ∉ keysD d ∧ domGet (domSet d v ws) v = []) := by
  by_cases h : v ∈ keysD d
  · exact Or.inl (domGet_domSet_self d v ws h)
  · exact Or.inr ⟨h, by rw [domSet_absent d v ws h]; exact domGet_absent d v h⟩

/-- A non-empty domain means the key is present. -/
theorem mem_keysD_of_domGet_ne_nil (d : Domains) (v : Slot)
    (h : domGet d v ≠ []) : v ∈ keysD d := by
  by_cases hm : v ∈ keysD d
  · exact hm
  · exact absurd (domGet_absent d v hm) h

/-- Pointwise-equal stores with identical key sequences and no duplicate
keys are equal as association lists. -/
theorem domains_ext (d1 d2 : Domains) (hk : keysD d1 = keysD d2)
    (hnd : (keysD d1).Nodup) (h : ∀ v, domGet d1 v = domGet d2 v) :
    d1 = d2 := by
  induction d1 generalizing d2 with
  | nil =>
    cases d2 with
    | nil => rfl
    | cons e r => simp [keysD] at hk
  | cons e r ih =>
    cases d2 with
    | nil => simp [keysD] at hk
    | cons e2 r2 =>
      simp only [keysD, List.map_cons, List.cons.injEq] at hk
      simp only [keysD, List.map_cons, List.nodup_cons] at hnd
      have hval : e.2 = e2.2 := by
        simpa [domGet, hk.1.symm] using h e.1
      have hr : r = r2 := by
        refine ih r2 ?_ hnd.2 ?_
        · simpa [keysD] using hk.2
        · intro v
          by_cases hv : v = e.1
          · subst hv
            have h1 : domGet r e.1 = [] :=
              domGet_absent r e.1 (by simpa [keysD] using hnd.1)
            have h2 : domGet r2 e.1 = [] := by
              apply domGet_absent
              have hkr : keysD r = keysD r2 := by simpa [keysD] using hk.2
              rw [← hkr]
              simpa [keysD] using hnd.1
            rw [h1, h2]
          · have hne1 : e.1 ≠ v := fun hh => hv hh.symm
            have hne2 : e2.1 ≠ v := by rw [← hk.1]; exact hne1
            have := h v
            simp only [domGet, if_neg hne1, if_neg hne2] at this
            exact this
      have he : e = e2 := Prod.ext hk.1 hval
      rw [he, hr]

/-! ## Lemmas about `revise` -/

theorem revise_ov_none (p : Puzzle) (d : Domains) (x y : Slot)
    (h : p.ov x y = none) : revise p d x y = (false, d) := by
  simp [revise, h]

theorem keysD_revise (p : Puzzle) (d : Domains) (x y : Slot) :
    keysD (revise p d x y).2 = keysD d := by
  match hov : p.ov x y with
  | none => simp [revise, hov]
  | some (m, n) => simp [revise, hov, keysD_domSet]

theorem revise_get_ne (p : Puzzle) (d : Domains) (x y u : Slot)
    (h : u ≠ x) : domGet (revise p d x y).2 u = domGet d u := by
  match hov : p.ov x y with
  | none => simp [revise, hov]
  | some (m, n) => simp [revise, hov, domGet_domSet_ne _ _ _ _ h]

theorem revise_get_self (p : Puzzle) (d : Domains) (x y : Slot) (m n : Nat)
    (h : p.ov x y = some (m, n)) :
    domGet (revise p d x y).2 x =
      (domGet d x).filter
        (fun w => (domGet d y).any (fun w2 => w.getD m '?' = w2.getD n '?')) := by
  simp only [revise, h]
  rcases domGet_domSet_self' d x
    ((domGet d x).filter
      (fun w => (domGet d y).any (fun w2 => w.getD m '?' = w2.getD n '?'))) with
    hc | ⟨habs, hc⟩
  · exact hc
  · rw [hc, domGet_absent d x habs]
    rfl

theorem revise_get_subset (p : Puzzle) (d : Domains) (x y : Slot) (u : Slot) :
    domGet (revise p d x y).2 u ⊆ domGet d u := by
  by_cases hu : u = x
  · subst hu
    match hov : p.ov u y with
    | none => simp [revise, hov]
    | some (m, n) =>
      rw [revise_get_self p d u y m n hov]
      exact (List.filter_sublist _).subset
  · rw [revise_get_ne p d x y u hu]
    exact fun _ hw => hw

theorem revise_false_get (p : Puzzle) (d : Domains) (x y : Slot)
    (h : (revise p d x y).1 = false) (u : Slot) :
    domGet (revise p d x y).2 u = domGet d u := by
  by_cases hu : u = x
  · subst hu
    match hov : p.ov u y with
    | none => simp [revise, hov]
    | some (m, n) =>
      have h' := h
      simp only [revise, hov, decide_eq_false_iff_not, ne_eq, not_not] at h'
      rw [revise_get_self p d u y m n hov]
      exact List.Sublist.eq_of_length (List.filter_sublist _) h'
  · rw [revise_get_ne p d x y u hu]

/-! ## Generic lemmas about the `ac3` worklist loop -/

/-- Unfolding: the loop accepts an empty worklist. -/
theorem ac3Go_nil (p : Puzzle) (fuel : Nat) (d : Domains) (one : Bool) :
    ac3Go p fuel [] d one = some (true, d) := by
  cases fuel <;> rfl

/-- Unfolding: one worklist step. -/
theorem ac3Go_cons (p : Puzzle) (n : Nat) (x y : Slot)
    (rest : List (Slot × Slot)) (d : Domains) (one : Bool) :
    ac3Go p (n + 1) ((x, y) :: rest) d one =
      if (revise p d x y).1 then
        if (domGet (revise p d x y).2 x).isEmpty then
          some (false, (revise p d x y).2)
        else
          ac3Go p n
            (if one then rest
             else rest ++
               ((neighbors p x).filter (fun z => z ≠ y)).map (fun z => (z, x)))
            (revise p d x y).2 one
      else ac3Go p n rest (revise p d x y).2 one := rfl

theorem ac3Go_keys (p : Puzzle) :
    ∀ (fuel : Nat) (pending : List (Slot × Slot)) (d : Domains) (one : Bool)
      (b : Bool) (d' : Domains),
      ac3Go p fuel pending d one = some (b, d') → keysD d' = keysD d := by
  intro fuel
  induction fuel with
  | zero =>
    intro pending d one b d' h
    cases pending with
    | nil =>
      rw [ac3Go_nil] at h
      simp only [Option.some.injEq, Prod.mk.injEq] at h
      rw [← h.2]
    | cons hd tl => simp [ac3Go] at h
  | succ n ih =>
    intro pending d one b d' h
    cases pending with
    | nil =>
      rw [ac3Go_nil] at h
      simp only [Option.some.injEq, Prod.mk.injEq] at h
      rw [← h.2]
    | cons hd tl =>
      obtain ⟨x, y⟩ := hd
      rw [ac3Go_cons] at h
      by_cases hr : (revise p d x y).1
      · rw [if_pos hr] at h
        by_cases he : (domGet (revise p d x y).2 x).isEmpty
        · rw [if_pos he] at h
          simp only [Option.some.injEq, Prod.mk.injEq] at h
          rw [← h.2, keysD_revise]
        · rw [if_neg he] at h
          rw [ih _ _ _ _ _ h, keysD_revise]
      · rw [if_neg hr] at h
        rw [ih _ _ _ _ _ h, keysD_revise]

theorem ac3Go_subset (p : Puzzle) :
    ∀ (fuel : Nat) (pending : List (Slot × Slot)) (d : Domains) (one : Bool)
      (b : Bool) (d' : Domains),
      ac3Go p fuel pending d one = some (b, d') →
      ∀ u, domGet d' u ⊆ domGet d u := by
  intro fuel
  induction fuel with
  | zero =>
    intro pending d one b d' h u
    cases pending with
    | nil =>
      rw [ac3Go_nil] at h
      simp only [Option.some.injEq, Prod.mk.injEq] at h
      rw [← h.2]
      exact fun _ hw => hw
    | cons hd tl => simp [ac3Go] at h
  | succ n ih =>
    intro pending d one b d' h u
    cases pending with
    | nil =>
      rw [ac3Go_nil] at h
      simp only [Option.some.injEq, Prod.mk.injEq] at h
      rw [← h.2]
      exact fun _ hw => hw
    | cons hd tl =>
      obtain ⟨x, y⟩ := hd
      rw [ac3Go_cons] at h
      by_cases hr : (revise p d x y).1
      · rw [if_pos hr] at h
        by_cases he : (domGet (revise p d x y).2 x).isEmpty
        · rw [if_pos he] at h
          simp only [Option.some.injEq, Prod.mk.injEq] at h
          rw [← h.2]
          exact revise_get_subset p d x y u
        · rw [if_neg he] at h
          exact fun w hw =>
            revise_get_subset p d x y u (ih _ _ _ _ _ h u hw)
      · rw [if_neg hr] at h
        exact fun w hw =>
          revise_get_subset p d x y u (ih _ _ _ _ _ h u hw)

/-- `ac3Run` only shrinks domains (whatever its boolean result). -/
theorem ac3Run_subset (p : Puzzle) (arcs : List (Slot × Slot)) (d : Domains)
    (one : Bool) (u : Slot) : domGet (ac3Run p arcs d one).2 u ⊆ domGet d u := by
  unfold ac3Run
  match hgo : ac3Go p (acBound p arcs d) arcs d one with
  | none => simp
  | some (b, d2) =>
    simpa using ac3Go_subset p _ _ _ _ _ _ hgo u

/-- `ac3Run` preserves the key sequence. -/
theorem ac3Run_keys (p : Puzzle) (arcs : List (Slot × Slot)) (d : Domains)
    (one : Bool) : keysD (ac3Run p arcs d one).2 = keysD d := by
  unfold ac3Run
  match hgo : ac3Go p (acBound p arcs d) arcs d one with
  | none => simp
  | some (b, d2) =>
    simpa using ac3Go_keys p _ _ _ _ _ _ hgo

/-! ## C6: arc consistency never removes a solution's values -/

/-- Bounded (decidable) form of "the assignment `f` satisfies every
overlap constraint of the puzzle". -/
def satOv (p : Puzzle) (f : Slot → Word) : Bool :=
  p.vars.all (fun x => p.vars.all (fun y =>
    match p.ov x y with
    | some (i, j) => (f x).getD i '?' == (f y).getD j '?'
    | none => true))

theorem satOv_spec (p : Puzzle) (f : Slot → Word) (h : satOv p f = true)
    (x y : Slot) (hx : x ∈ p.vars) (hy : y ∈ p.vars) (i j : Nat)
    (hov : p.ov x y = some (i, j)) :
    (f x).getD i '?' = (f y).getD j '?' := by
  simp only [satOv, List.all_eq_true] at h
  have := h x hx y hy
  rw [hov] at this
  simpa using this

theorem revise_preserves_mem (p : Puzzle) (f : Slot → Word)
    (hsat : satOv p f = true) (d : Domains) (x y : Slot)
    (hx : x ∈ p.vars) (hy : y ∈ p.vars) (hyk : y ∈ keysD d)
    (hmem : ∀ v ∈ keysD d, f v ∈ domGet d v) :
    ∀ v ∈ keysD d, f v ∈ domGet (revise p d x y).2 v := by
  intro v hv
  by_cases hvx : v = x
  · subst hvx
    match hov : p.ov v y with
    | none => rw [revise_ov_none p d v y hov]; exact hmem v hv
    | some (m, n) =>
      rw [revise_get_self p d v y m n hov]
      rw [List.mem_filter]
      refine ⟨hmem v hv, ?_⟩
      rw [List.any_eq_true]
      exact ⟨f y, hmem y hyk,
        by simpa using satOv_spec p f hsat v y hx hy m n hov⟩
  · rw [revise_get_ne p d x y v hvx]
    exact hmem v hv

theorem ac3Go_preserves_mem (p : Puzzle) (f : Slot → Word)
    (hsat : satOv p f = true) :
    ∀ (fuel : Nat) (pending : List (Slot × Slot)) (d : Domains) (one : Bool)
      (b : Bool) (d' : Domains),
      (∀ a ∈ pending, a.1 ∈ p.vars ∧ a.2 ∈ p.vars ∧ a.2 ∈ keysD d) →
      (∀ v ∈ keysD d, f v ∈ domGet d v) →
      ac3Go p fuel pending d one = some (b, d') →
      ∀ v ∈ keysD d', f v ∈ domGet d' v := by
  intro fuel
  induction fuel with
  | zero =>
    intro pending d one b d' harcs hmem h
    cases pending with
    | nil =>
      rw [ac3Go_nil] at h
      simp only [Option.some.injEq, Prod.mk.injEq] at h
      rw [← h.2]
      exact hmem
    | cons hd tl => simp [ac3Go] at h
  | succ n ih =>
    intro pending d one b d' harcs hmem h
    cases pending with
    | nil =>
      rw [ac3Go_nil] at h
      simp only [Option.some.injEq, Prod.mk.injEq] at h
      rw [← h.2]
      exact hmem
    | cons hd tl =>
      obtain ⟨x, y⟩ := hd
      have hxy := harcs (x, y) (List.mem_cons_self _ _)
      have hmem2 : ∀ v ∈ keysD (revise p d x y).2,
          f v ∈ domGet (revise p d x y).2 v := by
        rw [keysD_revise]
        exact revise_preserves_mem p f hsat d x y hxy.1 hxy.2.1 hxy.2.2 hmem
      have htl : ∀ a ∈ tl,
          a.1 ∈ p.vars ∧ a.2 ∈ p.vars ∧ a.2 ∈ keysD (revise p d x y).2 := by
        intro a ha
        have := harcs a (List.mem_cons_of_mem _ ha)
        exact ⟨this.1, this.2.1, keysD_revise p d x y ▸ this.2.2⟩
      rw [ac3Go_cons] at h
      by_cases hr : (revise p d x y).1
      · rw [if_pos hr] at h
        by_cases he : (domGet (revise p d x y).2 x).isEmpty
        · rw [if_pos he] at h
          simp only [Option.some.injEq, Prod.mk.injEq] at h
          rw [← h.2]
          exact hmem2
        · rw [if_neg he] at h
          refine ih _ _ _ _ _ ?_ hmem2 h
          -- the new worklist: old tail plus re-enqueued arcs (z, x)
          intro a ha
          have hxk : x ∈ keysD (revise p d x y).2 := by
            rw [keysD_revise]
            apply mem_keysD_of_domGet_ne_nil
            intro hnil
            match hov : p.ov x y with
            | none =>
              rw [revise_ov_none p d x y hov] at hr
              simp at hr
            | some (m, n) =>
              simp only [revise, hov, decide_eq_true_eq] at hr
              rw [hnil] at hr
              simp at hr
          rcases List.mem_append.mp (by
            cases one with
            | true => exact List.mem_append.mpr (Or.inl ha)
            | false => exact ha) with hin | hin
          · exact htl a hin
          · obtain ⟨z, hz, rfl⟩ := List.mem_map.mp hin
            have hz2 := List.mem_filter.mp hz
            have hz3 := List.mem_filter.mp hz2.1
            exact ⟨hz3.1, hxy.1, hxk⟩
      · rw [if_neg hr] at h
        exact ih _ _ _ _ _ htl hmem2 h

/-- C6.  CONFIRMED: for an assignment `f` satisfying every overlap
constraint whose values are present in the domains, neither `revise`
nor a run of `ac3` (any worklist, either propagation mode) ever removes
any of `f`'s values: they all remain in the corresponding domains
afterwards. -/
theorem ac3_never_removes_solution (p : Puzzle) (f : Slot → Word)
    (hsat : satOv p f = true) :
    (∀ (d : Domains) (x y : Slot), x ∈ p.vars → y ∈ p.vars → y ∈ keysD d →
      (∀ v ∈ keysD d, f v ∈ domGet d v) →
      ∀ v ∈ keysD d, f v ∈ domGet (revise p d x y).2 v) ∧
    (∀ (arcs : List (Slot × Slot)) (d : Domains) (one : Bool),
      (∀ a ∈ arcs, a.1 ∈ p.vars ∧ a.2 ∈ p.vars ∧ a.2 ∈ keysD d) →
      (∀ v ∈ keysD d, f v ∈ domGet d v) →
      ∀ v ∈ keysD d, f v ∈ domGet (ac3Run p arcs d one).2 v) := by
  constructor
  · intro d x y hx hy hyk hmem
    exact revise_preserves_mem p f hsat d x y hx hy hyk hmem
  · intro arcs d one harcs hmem v hv
    unfold ac3Run
    match hgo : ac3Go p (acBound p arcs d) arcs d one with
    | none => simpa using hmem v hv
    | some (b, d2) =>
      have hk := ac3Go_keys p _ _ _ _ _ _ hgo
      have := ac3Go_preserves_mem p f hsat _ _ _ _ _ _ harcs hmem hgo v
        (hk ▸ hv)
      simpa using this

/-- Slot `X` of the two-slot puzzle `P6`. -/
def x6 : Slot := ⟨0, 0, false, 2⟩

/-- Slot `Y` of the two-slot puzzle `P6`. -/
def y6 : Slot := ⟨1, 0, false, 2⟩

/-- Overlap table of `P6`: a single symmetric overlap `(0, 0)`. -/
def ovP6 : Slot → Slot → Option (Nat × Nat) := fun a b =>
  if (a = x6 ∧ b = y6) ∨ (a = y6 ∧ b = x6) then some (0, 0) else none

/-- Two overlapping slots used to witness the solution-preservation
theorem. -/
def P6 : Puzzle := ⟨[x6, y6], ovP6, []⟩

/-- A Domain Store for `P6`. -/
def dP6 : Domains := [(x6, ["aa".toList, "ba".toList]), (y6, ["aa".toList])]

/-- The satisfying assignment `X ↦ "aa"`, `Y ↦ "aa"` for `P6`. -/
def fP6 : Slot → Word := fun _ => "aa".toList

/-- Witness for `ac3_never_removes_solution`: running `ac3` on `P6`
keeps the satisfying value `"aa"` in `X`'s domain. -/
theorem ac3_never_removes_solution_witness :
    fP6 x6 ∈ domGet (ac3Run P6 [(x6, y6)] dP6 false).2 x6 :=
  (ac3_never_removes_solution P6 fP6 (by decide)).2 [(x6, y6)] dP6 false
    (by decide) (by decide) x6 (by decide)

/-! ## C8: termination of the `ac3` worklist loop -/

theorem totalSize_cons (e : Slot × List Word) (rest : Domains) :
    totalSize (e :: rest) = e.2.length + totalSize rest := by
  simp [totalSize]

theorem totalSize_domSet (d : Domains) (v : Slot) (ws : List Word)
    (hnd : (keysD d).Nodup) (h : v ∈ keysD d) :
    totalSize (domSet d v ws) + (domGet d v).length =
      totalSize d + ws.length := by
  induction d with
  | nil => simp [keysD] at h
  | cons e rest ih =>
    simp only [keysD, List.map_cons, List.nodup_cons] at hnd
    simp only [keysD, List.map_cons, List.mem_cons] at h
    by_cases he : e.1 = v
    · have hnr : v ∉ keysD rest := by rw [← he]; exact hnd.1
      have h1 : domSet (e :: rest) v ws = (e.1, ws) :: rest := by
        simp [domSet, he, domSet_absent rest v ws hnr]
      have h2 : domGet (e :: rest) v = e.2 := by simp [domGet, he]
      rw [h1, h2, totalSize_cons, totalSize_cons,
        show ((e.1, ws) : Slot × List Word).2 = ws from rfl]
      omega
    · have h' : v ∈ keysD rest := h.resolve_left (fun hh => he hh.symm)
      have hih := ih hnd.2 h'
      have h1 : domSet (e :: rest) v ws = e :: domSet rest v ws := by
        simp [domSet, he]
      have h2 : domGet (e :: rest) v = domGet rest v := by simp [domGet, he]
      rw [h1, h2, totalSize_cons, totalSize_cons]
      omega

theorem revise_totalSize_le (p : Puzzle) (d : Domains) (x y : Slot)
    (hnd : (keysD d).Nodup) :
    totalSize (revise p d x y).2 ≤ totalSize d := by
  match hov : p.ov x y with
  | none => rw [revise_ov_none p d x y hov]
  | some (m, n) =>
    simp only [revise, hov]
    by_cases hk : x ∈ keysD d
    · have := totalSize_domSet d x
        ((domGet d x).filter
          (fun w => (domGet d y).any (fun w2 => w.getD m '?' = w2.getD n '?')))
        hnd hk
      have hle := List.length_filter_le
        (fun w => (domGet d y).any (fun w2 => w.getD m '?' = w2.getD n '?'))
        (domGet d x)
      omega
    · rw [domSet_absent d x _ hk]

theorem revise_totalSize_lt (p : Puzzle) (d : Domains) (x y : Slot)
    (hnd : (keysD d).Nodup) (hr : (revise p d x y).1 = true) :
    totalSize (revise p d x y).2 < totalSize d := by
  match hov : p.ov x y with
  | none => rw [revise_ov_none p d x y hov] at hr; simp at hr
  | some (m, n) =>
    simp only [revise, hov, decide_eq_true_eq] at hr ⊢
    have hle := List.length_filter_le
      (fun w => (domGet d y).any (fun w2 => w.getD m '?' = w2.getD n '?'))
      (domGet d x)
    have hlt : ((domGet d x).filter
        (fun w => (domGet d y).any
          (fun w2 => w.getD m '?' = w2.getD n '?'))).length <
        (domGet d x).length := by omega
    have hk : x ∈ keysD d := by
      apply mem_keysD_of_domGet_ne_nil
      intro hnil
      rw [hnil] at hlt
      simp at hlt
    have := totalSize_domSet d x
      ((domGet d x).filter
        (fun w => (domGet d y).any (fun w2 => w.getD m '?' = w2.getD n '?')))
      hnd hk
    omega

theorem neighbors_length_le (p : Puzzle) (x : Slot) :
    (neighbors p x).length ≤ p.vars.length :=
  List.length_filter_le _ _

theorem ac3Go_isSome (p : Puzzle) :
    ∀ (fuel : Nat) (pending : List (Slot × Slot)) (d : Domains) (one : Bool),
      (keysD d).Nodup →
      totalSize d * (p.vars.length + 1) + pending.length + 1 ≤ fuel →
      (ac3Go p fuel pending d one).isSome := by
  intro fuel
  induction fuel using Nat.strong_induction_on with
  | _ fuel ih =>
    intro pending d one hnd hb
    cases pending with
    | nil => rw [ac3Go_nil]; rfl
    | cons hd tl =>
      obtain ⟨x, y⟩ := hd
      match fuel, hb with
      | n + 1, hb =>
        rw [ac3Go_cons]
        have hnd2 : (keysD (revise p d x y).2).Nodup := by
          rw [keysD_revise]; exact hnd
        by_cases hr : (revise p d x y).1
        · rw [if_pos hr]
          by_cases he : (domGet (revise p d x y).2 x).isEmpty
          · rw [if_pos he]; rfl
          · rw [if_neg he]
            apply ih n (Nat.lt_succ_self n) _ _ one hnd2
            have hlt := revise_totalSize_lt p d x y hnd hr
            have hmul : (totalSize (revise p d x y).2 + 1) *
                (p.vars.length + 1) ≤ totalSize d * (p.vars.length + 1) :=
              Nat.mul_le_mul_right _ hlt
            have hlen : (if one then tl
                else tl ++ ((neighbors p x).filter (fun z => z ≠ y)).map
                  (fun z => (z, x))).length ≤ tl.length + p.vars.length := by
              cases one with
              | true => simp
              | false =>
                simp only [if_neg (Bool.false_ne_true), List.length_append,
                  List.length_map]
                have h1 : ((neighbors p x).filter
                    (fun z => z ≠ y)).length ≤ (neighbors p x).length :=
                  List.length_filter_le _ _
                have h2 := neighbors_length_le p x
                omega
            simp only [List.length_cons] at hb
            rw [Nat.succ_mul] at hmul
            omega
        · rw [if_neg hr]
          apply ih n (Nat.lt_succ_self n) _ _ one hnd2
          have hle := revise_totalSize_le p d x y hnd
          have hmul : totalSize (revise p d x y).2 * (p.vars.length + 1) ≤
              totalSize d * (p.vars.length + 1) :=
            Nat.mul_le_mul_right _ hle
          simp only [List.length_cons] at hb
          omega

/-- C8.  CONFIRMED: the `ac3` worklist loop always terminates — the
fuel bound `acBound` (domains shrink at every re-enqueue, and there are
at most `|variables|` re-enqueued arcs per shrink) always suffices, in
either propagation mode — and one run only ever shrinks the domains,
never grows them. -/
theorem ac3_terminates (p : Puzzle) (arcs : List (Slot × Slot)) (d : Domains)
    (one : Bool) (hnd : (keysD d).Nodup) :
    (ac3Go p (acBound p arcs d) arcs d one).isSome ∧
    (∀ u, domGet (ac3Run p arcs d one).2 u ⊆ domGet d u) :=
  ⟨ac3Go_isSome p _ arcs d one hnd (Nat.le_refl _),
    fun u => ac3Run_subset p arcs d one u⟩

/-- Witness for `ac3_terminates` on the concrete puzzle `P1` with the
full arc worklist. -/
theorem ac3_terminates_witness :
    (ac3Go P1 (acBound P1 (allArcs P1) (nodeCons (initDoms P1)))
      (allArcs P1) (nodeCons (initDoms P1)) false).isSome ∧
    (∀ u, domGet (ac3Run P1 (allArcs P1) (nodeCons (initDoms P1)) false).2 u ⊆
      domGet (nodeCons (initDoms P1)) u) :=
  ac3_terminates P1 (allArcs P1) (nodeCons (initDoms P1)) false (by decide)

/-! ## C5: soundness of full arc-consistency propagation -/

/-- The arc `(x, y)` is consistent in store `d`: every word in `x`'s
domain has a compatible word in `y`'s domain at the overlap indices. -/
def arcConsAt (p : Puzzle) (d : Domains) (x y : Slot) : Prop :=
  ∀ i j, p.ov x y = some (i, j) → ∀ w ∈ domGet d x,
    ∃ w2 ∈ domGet d y, w.getD i '?' = w2.getD j '?'

/-- Bounded (decidable) form of "the overlap table is symmetric on the
puzzle's variables" (the Puzzle Model guarantees this: an overlap is a
property of the unordered pair, spec §3). -/
def symOv (p : Puzzle) : Bool :=
  p.vars.all (fun x => p.vars.all (fun y =>
    match p.ov x y with
    | some (i, j) => p.ov y x == some (j, i)
    | none => true))

theorem symOv_spec (p : Puzzle) (h : symOv p = true) (x y : Slot)
    (hx : x ∈ p.vars) (hy : y ∈ p.vars) (i j : Nat)
    (hov : p.ov x y = some (i, j)) : p.ov y x = some (j, i) := by
  simp only [symOv, List.all_eq_true] at h
  have := h x hx y hy
  rw [hov] at this
  simpa using this

theorem arcConsAt_of_eq (p : Puzzle) (d d2 : Domains) (x y : Slot)
    (hx : domGet d2 x = domGet d x) (hy : domGet d2 y = domGet d y)
    (h : arcConsAt p d x y) : arcConsAt p d2 x y := by
  intro i j hov w hw
  rw [hx] at hw
  rw [hy]
  exact h i j hov w hw

/-- A revised arc is consistent: after `revise p d x y`, every surviving
word of `x` has a compatible partner in `y`'s (unchanged) domain. -/
theorem arcConsAt_after_revise (p : Puzzle) (d : Domains) (x y : Slot)
    (hne : x ≠ y) : arcConsAt p (revise p d x y).2 x y := by
  intro i j hov w hw
  rw [revise_get_self p d x y i j hov] at hw
  have := List.mem_filter.mp hw
  rw [List.any_eq_true] at this
  obtain ⟨w2, hw2, heq⟩ := this.2
  refine ⟨w2, ?_, by simpa using heq⟩
  rw [revise_get_ne p d x y y (Ne.symm hne)]
  exact hw2

/-- An unrevised arc was already consistent. -/
theorem arcConsAt_of_not_revised (p : Puzzle) (d : Domains) (x y : Slot)
    (hr : (revise p d x y).1 = false) : arcConsAt p d x y := by
  intro i j hov w hw
  have h' := hr
  simp only [revise, hov, decide_eq_false_iff_not, ne_eq, not_not] at h'
  have hkeep : (domGet d x).filter
      (fun w => (domGet d y).any (fun w2 => w.getD i '?' = w2.getD j '?')) =
      domGet d x :=
    List.Sublist.eq_of_length (List.filter_sublist _) h'
  have : w ∈ (domGet d x).filter
      (fun w => (domGet d y).any (fun w2 => w.getD i '?' = w2.getD j '?')) := by
    rw [hkeep]; exact hw
  have hp := (List.mem_filter.mp this).2
  rw [List.any_eq_true] at hp
  obtain ⟨w2, hw2, heq⟩ := hp
  exact ⟨w2, hw2, by simpa using heq⟩

theorem mem_allArcs (p : Puzzle) (x y : Slot) :
    (x, y) ∈ allArcs p ↔
      x ∈ p.vars ∧ y ∈ p.vars ∧ y ≠ x ∧ (p.ov x y).isSome := by
  constructor
  · intro h
    simp only [allArcs, List.mem_flatMap, List.mem_map] at h
    obtain ⟨a, ha, b, hb, heq⟩ := h
    obtain ⟨hb1, hb2⟩ := List.mem_filter.mp hb
    obtain ⟨h1, h2⟩ := Prod.mk.injEq .. ▸ heq
    subst h1; subst h2
    simp only [decide_eq_true_eq] at hb2
    exact ⟨ha, hb1, by simpa using hb2.1, hb2.2⟩
  · intro ⟨hx, hy, hne, hov⟩
    simp only [allArcs, List.mem_flatMap, List.mem_map]
    exact ⟨x, hx, y, List.mem_filter.mpr ⟨hy, by simp [hne, hov]⟩, rfl⟩

theorem ac3Go_sound (p : Puzzle) (hsym : symOv p = true) :
    ∀ (fuel : Nat) (pending : List (Slot × Slot)) (d : Domains)
      (d' : Domains),
      (∀ a ∈ pending, a.1 ∈ p.vars ∧ a.2 ∈ p.vars ∧ a.1 ≠ a.2) →
      (∀ x ∈ p.vars, ∀ y ∈ p.vars, x ≠ y → (p.ov x y).isSome →
        (x, y) ∈ pending ∨ arcConsAt p d x y) →
      ac3Go p fuel pending d false = some (true, d') →
      ∀ x ∈ p.vars, ∀ y ∈ p.vars, x ≠ y → (p.ov x y).isSome →
        arcConsAt p d' x y := by
  intro fuel
  induction fuel with
  | zero =>
    intro pending d d' hpend hinv h
    cases pending with
    | nil =>
      rw [ac3Go_nil] at h
      simp only [Option.some.injEq, Prod.mk.injEq] at h
      intro x hx y hy hne hov
      rcases hinv x hx y hy hne hov with hmem | hcons
      · simp at hmem
      · rw [← h.2]; exact hcons
    | cons hd tl => simp [ac3Go] at h
  | succ n ih =>
    intro pending d d' hpend hinv h
    cases pending with
    | nil =>
      rw [ac3Go_nil] at h
      simp only [Option.some.injEq, Prod.mk.injEq] at h
      intro x hx y hy hne hov
      rcases hinv x hx y hy hne hov with hmem | hcons
      · simp at hmem
      · rw [← h.2]; exact hcons
    | cons hd tl =>
      obtain ⟨x0, y0⟩ := hd
      have h0 := hpend (x0, y0) (List.mem_cons_self _ _)
      have hx0v : x0 ∈ p.vars := h0.1
      have hy0v : y0 ∈ p.vars := h0.2.1
      have hne0 : x0 ≠ y0 := h0.2.2
      rw [ac3Go_cons] at h
      by_cases hr : (revise p d x0 y0).1
      · rw [if_pos hr] at h
        by_cases he : (domGet (revise p d x0 y0).2 x0).isEmpty
        · rw [if_pos he] at h
          simp at h
        · rw [if_neg he, if_neg (Bool.false_ne_true)] at h
          refine ih _ _ _ ?_ ?_ h
          · -- well-formedness of the extended worklist
            intro a ha
            rcases List.mem_append.mp ha with hin | hin
            · exact hpend a (List.mem_cons_of_mem _ hin)
            · obtain ⟨z, hz, rfl⟩ := List.mem_map.mp hin
              obtain ⟨hz1, hz2⟩ := List.mem_filter.mp hz
              obtain ⟨hz3, hz4⟩ := List.mem_filter.mp hz1
              simp only [decide_eq_true_eq] at hz4
              exact ⟨hz3, hx0v, by simpa using hz4.1⟩
          · -- the invariant after the revision of (x0, y0)
            intro x hx y hy hne hov
            by_cases hyx0 : y = x0
            · subst y
              by_cases hxy0 : x = y0
              · subst x
                rcases hinv y0 hx x0 hy hne hov with hmem | hcons
                · rcases List.mem_cons.mp hmem with heq | htl
                  · exact absurd (congrArg Prod.fst heq) (Ne.symm hne0)
                  · exact Or.inl (List.mem_append_left _ htl)
                · -- symmetric support: revising (x0, y0) keeps every
                  -- support of every word still in y0's domain
                  refine Or.inr ?_
                  intro i j hovyx w hw
                  rw [revise_get_ne p d x0 y0 y0 (Ne.symm hne0)] at hw
                  obtain ⟨w2, hw2, heq⟩ := hcons i j hovyx w hw
                  have hov0 : p.ov x0 y0 = some (j, i) :=
                    symOv_spec p hsym y0 x0 hx hy i j hovyx
                  refine ⟨w2, ?_, heq⟩
                  rw [revise_get_self p d x0 y0 j i hov0]
                  rw [List.mem_filter]
                  refine ⟨hw2, ?_⟩
                  rw [List.any_eq_true]
                  exact ⟨w, hw, by simpa using heq.symm⟩
              · -- the arc (x, x0) is re-enqueued
                refine Or.inl (List.mem_append_right _ ?_)
                rw [List.mem_map]
                refine ⟨x, ?_, rfl⟩
                rw [List.mem_filter]
                obtain ⟨⟨i, j⟩, hovx⟩ := Option.isSome_iff_exists.mp hov
                have hov0x : p.ov x0 x = some (j, i) :=
                  symOv_spec p hsym x x0 hx hy i j hovx
                refine ⟨?_, by simp [hxy0]⟩
                simp only [neighbors]
                rw [List.mem_filter]
                exact ⟨hx, by simp [hne, hov0x]⟩
            · by_cases hxx0 : x = x0
              · subst x
                by_cases hyy0 : y = y0
                · subst y
                  exact Or.inr (arcConsAt_after_revise p d x0 y0 hne0)
                · rcases hinv x0 hx y hy hne hov with hmem | hcons
                  · rcases List.mem_cons.mp hmem with heq | htl
                    · exact absurd (congrArg Prod.snd heq) hyy0
                    · exact Or.inl (List.mem_append_left _ htl)
                  · refine Or.inr ?_
                    intro i j hov' w hw
                    have hw' : w ∈ domGet d x0 :=
                      revise_get_subset p d x0 y0 x0 hw
                    obtain ⟨w2, hw2, heq⟩ := hcons i j hov' w hw'
                    refine ⟨w2, ?_, heq⟩
                    rw [revise_get_ne p d x0 y0 y hyx0]
                    exact hw2
              · rcases hinv x hx y hy hne hov with hmem | hcons
                · rcases List.mem_cons.mp hmem with heq | htl
                  · exact absurd (congrArg Prod.fst heq) hxx0
                  · exact Or.inl (List.mem_append_left _ htl)
                · exact Or.inr (arcConsAt_of_eq p d _ x y
                    (revise_get_ne p d x0 y0 x hxx0)
                    (revise_get_ne p d x0 y0 y hyx0) hcons)
      · rw [if_neg hr] at h
        refine ih _ _ _ (fun a ha => hpend a (List.mem_cons_of_mem _ ha))
          ?_ h
        intro x hx y hy hne hov
        have hget := revise_false_get p d x0 y0 (by simpa using hr)
        by_cases hxy : (x, y) = (x0, y0)
        · have h1 : x = x0 := congrArg Prod.fst hxy
          have h2 : y = y0 := congrArg Prod.snd hxy
          refine Or.inr (arcConsAt_of_eq p d _ x y (hget x) (hget y) ?_)
          rw [h1, h2]
          exact arcConsAt_of_not_revised p d x0 y0 (by simpa using hr)
        · rcases hinv x hx y hy hne hov with hmem | hcons
          · rcases List.mem_cons.mp hmem with heq | htl
            · exact absurd heq hxy
            · exact Or.inl htl
          · exact Or.inr (arcConsAt_of_eq p d _ x y (hget x) (hget y) hcons)

/-- C5.  CONFIRMED: whenever the full-propagation `ac3` run over all
arcs (`arcs=None`) returns success, every ordered pair of distinct
variables with a defined overlap `(i, j)` is arc consistent in the
resulting Domain Store: each remaining word of `x` has at least one
word in `y`'s domain agreeing at the overlap characters.  The overlap
table is assumed symmetric on the puzzle's variables, as the Puzzle
Model guarantees. -/
theorem ac3_full_run_sound (p : Puzzle) (d : Domains) (d' : Domains)
    (hsym : symOv p = true)
    (h : ac3Run p (allArcs p) d false = (true, d')) :
    ∀ x ∈ p.vars, ∀ y ∈ p.vars, x ≠ y → ∀ i j, p.ov x y = some (i, j) →
      ∀ w ∈ domGet d' x, ∃ w2 ∈ domGet d' y,
        w.getD i '?' = w2.getD j '?' := by
  intro x hx y hy hne i j hov w hw
  unfold ac3Run at h
  revert h
  match hgo : ac3Go p (acBound p (allArcs p) d) (allArcs p) d false with
  | none => intro h; simp at h
  | some (b, d2) =>
    intro h
    simp only [Option.getD_some, Prod.mk.injEq] at h
    obtain ⟨hb, hd⟩ := h
    subst hb; subst hd
    have hsound := ac3Go_sound p hsym _ _ _ _
      (fun a ha => by
        obtain ⟨a1, a2⟩ := a
        have := (mem_allArcs p a1 a2).mp ha
        exact ⟨this.1, this.2.1, (this.2.2.1).symm⟩)
      (fun x' hx' y' hy' hne' hov' =>
        Or.inl ((mem_allArcs p x' y').mpr ⟨hx', hy', hne'.symm, hov'⟩))
      hgo
    exact hsound x hx y hy hne (by simp [hov]) i j hov w hw

/-- Witness for `ac3_full_run_sound` on `P1` (whose initial store is
already arc consistent, so the full run succeeds unchanged). -/
theorem ac3_full_run_sound_witness :
    ∃ w2 ∈ domGet (nodeCons (initDoms P1)) sB,
      ("xy".toList).getD 0 '?' = w2.getD 0 '?' :=
  ac3_full_run_sound P1 (nodeCons (initDoms P1)) (nodeCons (initDoms P1))
    (by decide) (by decide) sA (by decide) sB (by decide) (by decide) 0 0
    (by decide) "xy".toList (by decide)

/-! ## C4: `order_domain_values` leaves the Domain Store untouched -/

theorem not_mem_neighbors_self (p : Puzzle) (v : Slot) :
    v ∉ neighbors p v := by
  intro h
  have := List.mem_filter.mp h
  simp at this

theorem map_fst_probe_arcs (nbrs : List Slot) (var : Slot) :
    (nbrs.map (fun n => (n, var))).map Prod.fst = nbrs := by
  induction nbrs with
  | nil => rfl
  | cons n rest ih => simp [ih]

theorem ac3Go_one_frame (p : Puzzle) :
    ∀ (fuel : Nat) (pending : List (Slot × Slot)) (d : Domains)
      (b : Bool) (d' : Domains),
      ac3Go p fuel pending d true = some (b, d') →
      ∀ k, k ∉ pending.map Prod.fst → domGet d' k = domGet d k := by
  intro fuel
  induction fuel with
  | zero =>
    intro pending d b d' h k hk
    cases pending with
    | nil =>
      rw [ac3Go_nil] at h
      simp only [Option.some.injEq, Prod.mk.injEq] at h
      rw [← h.2]
    | cons hd tl => simp [ac3Go] at h
  | succ n ih =>
    intro pending d b d' h k hk
    cases pending with
    | nil =>
      rw [ac3Go_nil] at h
      simp only [Option.some.injEq, Prod.mk.injEq] at h
      rw [← h.2]
    | cons hd tl =>
      obtain ⟨x, y⟩ := hd
      simp only [List.map_cons, List.mem_cons, not_or] at hk
      rw [ac3Go_cons] at h
      by_cases hr : (revise p d x y).1
      · rw [if_pos hr] at h
        by_cases he : (domGet (revise p d x y).2 x).isEmpty
        · rw [if_pos he] at h
          simp only [Option.some.injEq, Prod.mk.injEq] at h
          rw [← h.2]
          exact revise_get_ne p d x y k hk.1
        · rw [if_neg he, if_pos rfl] at h
          rw [ih _ _ _ _ h k hk.2]
          exact revise_get_ne p d x y k hk.1
      · rw [if_neg hr] at h
        rw [ih _ _ _ _ h k hk.2]
        exact revise_get_ne p d x y k hk.1

theorem ac3Run_one_frame (p : Puzzle) (arcs : List (Slot × Slot))
    (d : Domains) (k : Slot) (hk : k ∉ arcs.map Prod.fst) :
    domGet (ac3Run p arcs d true).2 k = domGet d k := by
  unfold ac3Run
  match hgo : ac3Go p (acBound p arcs d) arcs d true with
  | none => simp
  | some (b, d2) =>
    simpa using ac3Go_one_frame p _ _ _ _ _ hgo k hk

theorem odvGo_frame (p : Puzzle) (var : Slot) (a : Assign)
    (nbrs : List Slot) (orig : Domains) :
    ∀ (l : List Word) (d : Domains) (k : Slot), k ∉ nbrs → k ≠ var →
      domGet (odvGo p var a nbrs orig l d).2 k = domGet d k := by
  intro l
  induction l with
  | nil => intro d k _ _; rfl
  | cons w rest ih =>
    intro d k hkn hkv
    simp only [odvGo]
    by_cases hr : (ac3Run p (nbrs.map (fun n => (n, var)))
        (domSet d var [w]) true).1
    · rw [if_pos hr]
      rw [ih _ k hkn hkv, ac3Run_one_frame p _ _ k
        (by rw [map_fst_probe_arcs]; exact hkn),
        domGet_domSet_ne d var k [w] hkv]
    · rw [if_neg hr]
      rw [ih _ k hkn hkv, ac3Run_one_frame p _ _ k
        (by rw [map_fst_probe_arcs]; exact hkn),
        domGet_domSet_ne d var k [w] hkv]

theorem odvGo_keys (p : Puzzle) (var : Slot) (a : Assign)
    (nbrs : List Slot) (orig : Domains) :
    ∀ (l : List Word) (d : Domains),
      keysD (odvGo p var a nbrs orig l d).2 = keysD d := by
  intro l
  induction l with
  | nil => intro d; rfl
  | cons w rest ih =>
    intro d
    simp only [odvGo]
    by_cases hr : (ac3Run p (nbrs.map (fun n => (n, var)))
        (domSet d var [w]) true).1
    · rw [if_pos hr, ih, ac3Run_keys, keysD_domSet]
    · rw [if_neg hr, ih, ac3Run_keys, keysD_domSet]

theorem foldl_restore_keys (d0 : Domains) :
    ∀ (L : List Slot) (s : Domains),
      keysD (L.foldl (fun acc i => domSet acc i (domGet d0 i)) s) =
        keysD s := by
  intro L
  induction L with
  | nil => intro s; rfl
  | cons i rest ih =>
    intro s
    rw [List.foldl_cons, ih, keysD_domSet]

theorem foldl_restore_frame (d0 : Domains) :
    ∀ (L : List Slot) (s : Domains) (k : Slot), k ∉ L →
      domGet (L.foldl (fun acc i => domSet acc i (domGet d0 i)) s) k =
        domGet s k := by
  intro L
  induction L with
  | nil => intro s k _; rfl
  | cons i rest ih =>
    intro s k hk
    simp only [List.mem_cons, not_or] at hk
    rw [List.foldl_cons, ih _ k hk.2, domGet_domSet_ne s i k _
      (fun h => hk.1 h)]

theorem foldl_restore_get (d0 : Domains) :
    ∀ (L : List Slot) (s : Domains) (k : Slot), k ∈ L →
      keysD s = keysD d0 →
      domGet (L.foldl (fun acc i => domSet acc i (domGet d0 i)) s) k =
        domGet d0 k := by
  intro L
  induction L with
  | nil => intro s k hk; simp at hk
  | cons i rest ih =>
    intro s k hk hks
    rw [List.foldl_cons]
    by_cases hkr : k ∈ rest
    · exact ih _ k hkr (by rw [keysD_domSet]; exact hks)
    · have hki : k = i := by
        rcases List.mem_cons.mp hk with h | h
        · exact h
        · exact absurd h hkr
      subst hki
      rw [foldl_restore_frame d0 rest _ k hkr]
      by_cases hmem : k ∈ keysD s
      · exact domGet_domSet_self s k _ hmem
      · rw [domSet_absent s k _ hmem, domGet_absent s k hmem,
          domGet_absent d0 k (hks ▸ hmem)]

/-- C4.  CONFIRMED: `order_domain_values` restores the Domain Store
exactly — after the call the store (with its fixed, duplicate-free
key sequence) equals its state before the call; the only observable
output is the returned ordering. -/
theorem order_domain_values_restores_store (p : Puzzle) (var : Slot)
    (a : Assign) (d : Domains) (hnd : (keysD d).Nodup) :
    (orderDV p var a d).2 = d := by
  have hvn : var ∉ neighbors p var := not_mem_neighbors_self p var
  have hpk : keysD (odvGo p var a (neighbors p var) d (domGet d var) d).2 =
      keysD d := odvGo_keys p var a _ d _ d
  have hrk : keysD ((neighbors p var).foldl
      (fun acc i => domSet acc i (domGet d i))
      (odvGo p var a (neighbors p var) d (domGet d var) d).2) = keysD d := by
    rw [foldl_restore_keys, hpk]
  refine domains_ext _ d ?_ ?_ ?_
  · simp only [orderDV]
    rw [keysD_domSet, hrk]
  · simp only [orderDV]
    rw [keysD_domSet, hrk]
    exact hnd
  · intro k
    simp only [orderDV]
    by_cases hkv : k = var
    · subst hkv
      by_cases hmem : k ∈ keysD d
      · exact domGet_domSet_self _ k _ (hrk ▸ hmem)
      · rw [domSet_absent _ k _ (hrk ▸ hmem),
          foldl_restore_frame d _ _ k hvn, domGet_absent _ k (hpk ▸ hmem),
          domGet_absent d k hmem]
    · rw [domGet_domSet_ne _ var k _ hkv]
      by_cases hkn : k ∈ neighbors p var
      · exact foldl_restore_get d _ _ k hkn hpk
      · rw [foldl_restore_frame d _ _ k hkn]
        exact odvGo_frame p var a _ d _ d k hkn hkv

/-- Witness for `order_domain_values_restores_store` at the top-level
probe of `P2`. -/
theorem order_domain_values_restores_store_witness :
    (orderDV P2 tD [] domsP2).2 = domsP2 :=
  order_domain_values_restores_store P2 tD [] domsP2 (by decide)

/-! ## C10: candidates whose probe fails are omitted from the ordering -/

theorem insertPair_mem (x e : Nat × Word) :
    ∀ (ys : List (Nat × Word)), e ∈ insertPair x ys ↔ e = x ∨ e ∈ ys := by
  intro ys
  induction ys with
  | nil => simp [insertPair]
  | cons y rest ih =>
    simp only [insertPair]
    by_cases h : pairLe y x
    · rw [if_pos h]
      rw [List.mem_cons, List.mem_cons, ih]
      tauto
    · rw [if_neg h]
      rw [List.mem_cons, List.mem_cons]

theorem sortPairs_mem (e : Nat × Word) :
    ∀ (ps : List (Nat × Word)), e ∈ sortPairs ps ↔ e ∈ ps := by
  intro ps
  induction ps with
  | nil => simp [sortPairs]
  | cons x rest ih =>
    simp only [sortPairs, insertPair_mem, ih, List.mem_cons]

theorem odvGo_append (p : Puzzle) (var : Slot) (a : Assign)
    (nbrs : List Slot) (orig : Domains) :
    ∀ (l₁ l₂ : List Word) (d : Domains),
      (odvGo p var a nbrs orig (l₁ ++ l₂) d).1 =
        (odvGo p var a nbrs orig l₁ d).1 ++
          (odvGo p var a nbrs orig l₂ (odvGo p var a nbrs orig l₁ d).2).1 := by
  intro l₁
  induction l₁ with
  | nil => intro l₂ d; rfl
  | cons w rest ih =>
    intro l₂ d
    simp only [List.cons_append, odvGo]
    by_cases hr : (ac3Run p (nbrs.map (fun n => (n, var)))
        (domSet d var [w]) true).1
    · rw [if_pos hr, if_pos hr]
      simp [ih]
    · rw [if_neg hr, if_neg hr]
      exact ih _ _

theorem odvGo_words_sub (p : Puzzle) (var : Slot) (a : Assign)
    (nbrs : List Slot) (orig : Domains) :
    ∀ (l : List Word) (d : Domains) (e : Nat × Word),
      e ∈ (odvGo p var a nbrs orig l d).1 → e.2 ∈ l := by
  intro l
  induction l with
  | nil => intro d e h; simp [odvGo] at h
  | cons w rest ih =>
    intro d e h
    simp only [odvGo] at h
    by_cases hr : (ac3Run p (nbrs.map (fun n => (n, var)))
        (domSet d var [w]) true).1
    · rw [if_pos hr] at h
      rcases List.mem_cons.mp h with heq | htl
      · rw [heq]; exact List.mem_cons_self _ _
      · exact List.mem_cons_of_mem _ (ih _ e htl)
    · rw [if_neg hr] at h
      exact List.mem_cons_of_mem _ (ih _ e h)

/-- The Domain Store after `order_domain_values` holds `var`'s original
domain (the per-variable restore, without any well-formedness
hypothesis). -/
theorem orderDV_get_var (p : Puzzle) (var : Slot) (a : Assign)
    (d : Domains) : domGet (orderDV p var a d).2 var = domGet d var := by
  simp only [orderDV]
  by_cases hmem : var ∈ keysD d
  · refine domGet_domSet_self _ var _ ?_
    rw [foldl_restore_keys, odvGo_keys]
    exact hmem
  · have hk : var ∉ keysD ((neighbors p var).foldl
        (fun acc i => domSet acc i (domGet d i))
        (odvGo p var a (neighbors p var) d (domGet d var) d).2) := by
      rw [foldl_restore_keys, odvGo_keys]
      exact hmem
    rw [domSet_absent _ var _ hk, domGet_absent _ var hk,
      domGet_absent d var hmem]

/-- C10.  CONFIRMED: `order_domain_values` may return a strict subset
of the variable's domain.  If the single-value arc-consistency probe
for a candidate `w` (run, as the code does, against the store as
narrowed by the earlier probes) fails — i.e. empties some neighbor's
domain — then `w` is omitted from the returned ordering entirely, even
though `w` is still in the variable's domain when the call returns. -/
theorem probe_failure_omits_candidate (p : Puzzle) (var : Slot)
    (a : Assign) (d : Domains) (w : Word) (l₁ l₂ : List Word)
    (hsplit : domGet d var = l₁ ++ w :: l₂)
    (hw1 : w ∉ l₁) (hw2 : w ∉ l₂)
    (hfail : (ac3Run p ((neighbors p var).map (fun n => (n, var)))
      (domSet (odvGo p var a (neighbors p var) d l₁ d).2 var [w])
      true).1 = false) :
    w ∉ (orderDV p var a d).1 ∧
      w ∈ domGet (orderDV p var a d).2 var := by
  constructor
  · intro hmem
    simp only [orderDV] at hmem
    rw [List.mem_map] at hmem
    obtain ⟨e, he, hew⟩ := hmem
    rw [sortPairs_mem] at he
    rw [hsplit, odvGo_append] at he
    rcases List.mem_append.mp he with h1 | h2
    · exact hw1 (hew ▸ odvGo_words_sub p var a _ _ _ _ e h1)
    · rw [show (w :: l₂) = [w] ++ l₂ from rfl, odvGo_append] at h2
      rcases List.mem_append.mp h2 with h3 | h4
      · simp only [odvGo, hfail, Bool.false_eq_true, if_false] at h3
        simp [odvGo] at h3
      · have hstate : (odvGo p var a (neighbors p var) d [w]
            (odvGo p var a (neighbors p var) d l₁ d).2).2 =
            (ac3Run p ((neighbors p var).map (fun n => (n, var)))
              (domSet (odvGo p var a (neighbors p var) d l₁ d).2 var [w])
              true).2 := by
          simp [odvGo, hfail]
        rw [hstate] at h4
        exact hw2 (hew ▸ odvGo_words_sub p var a _ _ _ _ e h4)
  · rw [orderDV_get_var, hsplit]
    exact List.mem_append_right _ (List.mem_cons_self _ _)

/-- Witness for `probe_failure_omits_candidate`: in `P2`, the probe for
`"waaaa"` (after the probe for `"xaaaa"` has already narrowed `A`'s
domain) empties `A`'s domain, so `"waaaa"` is not offered to the search
even though it stays in `D`'s domain. -/
theorem probe_failure_omits_candidate_witness :
    "waaaa".toList ∉ (orderDV P2 tD [] domsP2).1 ∧
      "waaaa".toList ∈ domGet (orderDV P2 tD [] domsP2).2 tD :=
  probe_failure_omits_candidate P2 tD [] domsP2 "waaaa".toList
    ["xaaaa".toList] ["zaaaa".toList] (by decide) (by decide) (by decide)
    (by decide)

/-! ## C7: a returned assignment is complete and consistent -/

/-- The key list of an assignment. -/
def keysA (a : Assign) : List Slot := a.map Prod.fst

theorem aHas_iff (a : Assign) (v : Slot) : aHas a v = true ↔ v ∈ keysA a := by
  induction a with
  | nil => simp [aHas, keysA]
  | cons e rest ih =>
    simp only [aHas, keysA, List.map_cons, List.mem_cons, Bool.or_eq_true,
      decide_eq_true_eq]
    rw [ih]
    constructor
    · rintro (h | h)
      · exact Or.inl h.symm
      · exact Or.inr h
    · rintro (h | h)
      · exact Or.inl h.symm
      · exact Or.inr h

theorem aUpd_keys (a : Assign) (v : Slot) (w : Word) :
    keysA (aUpd a v w) = keysA a := by
  induction a with
  | nil => rfl
  | cons e rest ih =>
    simp only [aUpd]
    by_cases h : e.1 = v
    · rw [if_pos h]
      simp only [keysA, List.map_cons] at ih ⊢
      rw [ih]
    · rw [if_neg h]
      simp only [keysA, List.map_cons] at ih ⊢
      rw [ih]

theorem aSet_keys_nodup (a : Assign) (v : Slot) (w : Word)
    (hnd : (keysA a).Nodup) : (keysA (aSet a v w)).Nodup := by
  unfold aSet
  by_cases h : aHas a v
  · rw [if_pos h, aUpd_keys]
    exact hnd
  · rw [if_neg h]
    have hv : v ∉ keysA a := fun hm => h ((aHas_iff a v).mpr hm)
    simp only [keysA, List.map_append, List.map_cons, List.map_nil]
    rw [List.nodup_append]
    refine ⟨hnd, List.nodup_singleton v, ?_⟩
    intro x hx hxv
    rw [List.mem_singleton] at hxv
    exact hv (hxv ▸ hx)

theorem aSet_keys_sub (a : Assign) (v : Slot) (w : Word) (u : Slot)
    (h : u ∈ keysA (aSet a v w)) : u ∈ keysA a ∨ u = v := by
  unfold aSet at h
  by_cases hh : aHas a v
  · rw [if_pos hh, aUpd_keys] at h
    exact Or.inl h
  · rw [if_neg hh] at h
    simp only [keysA, List.map_append, List.map_cons, List.map_nil,
      List.mem_append, List.mem_cons] at h
    rcases h with h | h
    · exact Or.inl h
    · exact Or.inr (by simpa using h)

theorem selectGo_mem (p : Puzzle) (d : Domains) (a : Assign) :
    ∀ (L : List Slot) (chosen : Option Slot) (best bn : Nat) (c : Slot),
      selectGo p d a L chosen best bn = some c →
      chosen = some c ∨ c ∈ L := by
  intro L
  induction L with
  | nil =>
    intro chosen best bn c h
    exact Or.inl h
  | cons i rest ih =>
    intro chosen best bn c h
    simp only [selectGo] at h
    by_cases hskip : ((!a.isEmpty) && truthyAt a i) = true
    · rw [if_pos hskip] at h
      rcases ih _ _ _ _ h with h1 | h1
      · exact Or.inl h1
      · exact Or.inr (List.mem_cons_of_mem _ h1)
    · rw [if_neg hskip] at h
      cases chosen with
      | none =>
        dsimp only at h
        rcases ih _ _ _ _ h with h1 | h1
        · exact Or.inr (List.mem_cons.mpr (Or.inl (Option.some.inj h1).symm))
        · exact Or.inr (List.mem_cons_of_mem _ h1)
      | some c0 =>
        dsimp only at h
        by_cases h2 : (domGet d i).length < best
        · rw [if_pos h2] at h
          rcases ih _ _ _ _ h with h1 | h1
          · exact Or.inr (List.mem_cons.mpr (Or.inl (Option.some.inj h1).symm))
          · exact Or.inr (List.mem_cons_of_mem _ h1)
        · rw [if_neg h2] at h
          by_cases h3 : (domGet d i).length = best
          · rw [if_pos h3] at h
            by_cases h4 : bn < (neighbors p i).length
            · rw [if_pos h4] at h
              rcases ih _ _ _ _ h with h1 | h1
              · exact Or.inr
                  (List.mem_cons.mpr (Or.inl (Option.some.inj h1).symm))
              · exact Or.inr (List.mem_cons_of_mem _ h1)
            · rw [if_neg h4] at h
              rcases ih _ _ _ _ h with h1 | h1
              · exact Or.inl (h1 ▸ rfl)
              · exact Or.inr (List.mem_cons_of_mem _ h1)
          · rw [if_neg h3] at h
            rcases ih _ _ _ _ h with h1 | h1
            · exact Or.inl (h1 ▸ rfl)
            · exact Or.inr (List.mem_cons_of_mem _ h1)

theorem selectUV_mem (p : Puzzle) (d : Domains) (a : Assign) (c : Slot)
    (h : selectUV p d a = some c) : c ∈ p.vars := by
  rcases selectGo_mem p d a p.vars none 0 0 c h with h1 | h1
  · cases h1
  · exact h1

theorem completeFn_spec (p : Puzzle) (m : Assign)
    (h : completeFn p m = true) :
    m.length = p.vars.length ∧ ∀ e ∈ m, e.2 ≠ [] := by
  unfold completeFn at h
  by_cases hl : m.length = p.vars.length
  · rw [if_pos hl] at h
    rw [List.all_eq_true] at h
    refine ⟨hl, fun e he => ?_⟩
    have := h e he
    simpa using this
  · rw [if_neg hl] at h
    cases h

theorem btLoop_found (p : Puzzle) (k : Domains → Assign → Option BTRes)
    (hk : ∀ d a m, (keysA a).Nodup → (∀ v ∈ keysA a, v ∈ p.vars) →
      consistentFn p a = true → k d a = some (.found m) →
      (keysA m).Nodup ∧ (∀ v ∈ keysA m, v ∈ p.vars) ∧
        completeFn p m = true ∧ consistentFn p m = true) :
    ∀ (vals : List Word) (d : Domains) (a : Assign) (var : Slot) (m : Assign),
      var ∈ p.vars → (keysA a).Nodup → (∀ v ∈ keysA a, v ∈ p.vars) →
      btLoop p k d a var vals = some (.found m) →
      (keysA m).Nodup ∧ (∀ v ∈ keysA m, v ∈ p.vars) ∧
        completeFn p m = true ∧ consistentFn p m = true := by
  intro vals
  induction vals with
  | nil =>
    intro d a var m hvar hnd hsub h
    simp [btLoop] at h
  | cons v rest ih =>
    intro d a var m hvar hnd hsub h
    simp only [btLoop] at h
    by_cases hcons : consistentFn p (aSet a var v) = true
    · rw [if_pos hcons] at h
      by_cases hac : (ac3Run p ((neighbors p var).map (fun n => (n, var)))
          (domSet d var [v]) false).1 = true
      · rw [if_pos hac] at h
        have hnd' : (keysA (aSet a var v)).Nodup := aSet_keys_nodup a var v hnd
        have hsub' : ∀ u ∈ keysA (aSet a var v), u ∈ p.vars := by
          intro u hu
          rcases aSet_keys_sub a var v u hu with h1 | h1
          · exact hsub u h1
          · exact h1 ▸ hvar
        match hk2 : k (ac3Run p ((neighbors p var).map (fun n => (n, var)))
            (domSet d var [v]) false).2 (aSet a var v) with
        | none => rw [hk2] at h; simp at h
        | some BTRes.noSol =>
          rw [hk2] at h
          dsimp only at h
          exact ih _ _ _ _ hvar hnd hsub h
        | some BTRes.falseSig =>
          rw [hk2] at h
          dsimp only at h
          exact ih _ _ _ _ hvar hnd hsub h
        | some (BTRes.found m') =>
          rw [hk2] at h
          dsimp only at h
          by_cases hemp : m'.isEmpty = true
          · rw [if_pos hemp] at h
            exact ih _ _ _ _ hvar hnd hsub h
          · rw [if_neg hemp] at h
            have hm : m' = m := by
              simpa using h
            exact hm ▸ hk _ _ m' hnd' hsub' hcons hk2
      · rw [if_neg hac] at h
        cases h
    · rw [if_neg hcons] at h
      exact ih _ _ _ _ hvar hnd hsub h

theorem btGo_found (p : Puzzle) :
    ∀ (fuel : Nat) (d : Domains) (a : Assign) (m : Assign),
      (keysA a).Nodup → (∀ v ∈ keysA a, v ∈ p.vars) →
      consistentFn p a = true →
      btGo p fuel d a = some (.found m) →
      (keysA m).Nodup ∧ (∀ v ∈ keysA m, v ∈ p.vars) ∧
        completeFn p m = true ∧ consistentFn p m = true := by
  intro fuel
  induction fuel with
  | zero =>
    intro d a m _ _ _ h
    cases h
  | succ n ih =>
    intro d a m hnd hsub hcons h
    simp only [btGo] at h
    by_cases hcomp : completeFn p a = true
    · rw [if_pos hcomp] at h
      have hm : a = m := by simpa using h
      exact hm ▸ ⟨hnd, hsub, hcomp, hcons⟩
    · rw [if_neg hcomp] at h
      match hsel : selectUV p d a with
      | none => rw [hsel] at h; cases h
      | some var =>
        rw [hsel] at h
        exact btLoop_found p (btGo p n) (fun d' a' m' => ih d' a' m') _ _ _
          var m (selectUV_mem p d a var hsel) hnd hsub h

theorem aGet_some_of_mem_keys (a : Assign) (v : Slot) (h : v ∈ keysA a) :
    ∃ w, aGet a v = some w := by
  induction a with
  | nil => simp [keysA] at h
  | cons e rest ih =>
    by_cases he : e.1 = v
    · exact ⟨e.2, by simp [aGet, he]⟩
    · simp only [keysA, List.map_cons, List.mem_cons] at h
      have h' : v ∈ keysA rest := h.resolve_left (fun hh => he hh.symm)
      obtain ⟨w, hw⟩ := ih h'
      exact ⟨w, by simp [aGet, he, hw]⟩

theorem aGet_mem (a : Assign) (v : Slot) (w : Word)
    (h : aGet a v = some w) : (v, w) ∈ a := by
  induction a with
  | nil => simp [aGet] at h
  | cons e rest ih =>
    simp only [aGet] at h
    by_cases he : e.1 = v
    · rw [if_pos he] at h
      have hw : e.2 = w := Option.some.inj h
      exact List.mem_cons.mpr (Or.inl (by rw [← he, ← hw]))
    · rw [if_neg he] at h
      exact List.mem_cons_of_mem _ (ih h)

/-- C7.  CONFIRMED: whenever `solve` returns a mapping, that mapping is
complete — exactly one entry per variable, each a non-empty word — and
passes the assignment consistency check (`consistent`), which enforces
length agreement, global word uniqueness, and character agreement at
every overlap of assigned neighbors. -/
theorem solve_found_complete_consistent (p : Puzzle) (m : Assign)
    (hvars : p.vars.Nodup) (h : solve p = some (BTRes.found m)) :
    completeFn p m = true ∧ consistentFn p m = true ∧
    (keysA m).Nodup ∧ m.length = p.vars.length ∧
    (∀ v ∈ p.vars, ∃ w, aGet m v = some w ∧ w ≠ []) := by
  unfold solve at h
  have hq := btGo_found p (p.vars.length + 1) _ [] m
    (by simp [keysA]) (by simp [keysA]) rfl h
  obtain ⟨hnd, hsub, hcomp, hcons⟩ := hq
  obtain ⟨hlen, hval⟩ := completeFn_spec p m hcomp
  have hmlen : (keysA m).length = m.length := List.length_map _ _
  have hfin : p.vars.toFinset = (keysA m).toFinset := by
    refine (Finset.eq_of_subset_of_card_le ?_ ?_).symm
    · intro x hx
      exact List.mem_toFinset.mpr (hsub x (List.mem_toFinset.mp hx))
    · rw [List.toFinset_card_of_nodup hnd, List.toFinset_card_of_nodup hvars]
      omega
  refine ⟨hcomp, hcons, hnd, hlen, ?_⟩
  intro v hv
  have hvk : v ∈ keysA m := by
    have := List.mem_toFinset.mpr hv
    rw [hfin] at this
    exact List.mem_toFinset.mp this
  obtain ⟨w, hw⟩ := aGet_some_of_mem_keys m v hvk
  exact ⟨w, hw, hval (v, w) (aGet_mem m v w hw)⟩

/-- Witness for `solve_found_complete_consistent` on the one-slot
puzzle `PT`. -/
theorem solve_found_complete_consistent_witness :
    completeFn PT [(y1, "ab".toList)] = true ∧
      consistentFn PT [(y1, "ab".toList)] = true :=
  ⟨(solve_found_complete_consistent PT [(y1, "ab".toList)] (by decide)
      (by decide)).1,
    (solve_found_complete_consistent PT [(y1, "ab".toList)] (by decide)
      (by decide)).2.1⟩

/-! ## C9: a slot with no word of its length -/

/-- C9 counterexample.  On `P9` (one length-3 slot, vocabulary
`{"ab"}`), node consistency empties the slot's domain and `solve`
returns `None` — but not "without entering the backtracking search":
`solve` unconditionally invokes `backtrack` (conjunct 2 identifies
`solve`'s result as the result of that very `backtrack` call), which
selects the empty-domain variable, receives an empty candidate
ordering, and only then returns `None` itself. -/
theorem solve_empty_domain_still_runs_backtrack :
    solve P9 = some BTRes.noSol ∧
    solve P9 = btGo P9 2 domsP9 [] ∧
    nodeCons (initDoms P9) = domsP9 ∧
    (ac3Run P9 (allArcs P9) domsP9 false).2 = domsP9 ∧
    selectUV P9 domsP9 [] = some w9 ∧
    (orderDV P9 w9 [] domsP9).1 = [] ∧
    btGo P9 2 domsP9 [] = some BTRes.noSol := by
  refine ⟨by decide, by decide, by decide, by decide, by decide, by decide,
    by decide⟩

theorem domGet_map_const (ws : List Word) :
    ∀ (L : List Slot) (v : Slot), v ∈ L →
      domGet (L.map (fun u => (u, ws))) v = ws := by
  intro L
  induction L with
  | nil => intro v hv; simp at hv
  | cons u rest ih =>
    intro v hv
    by_cases hu : u = v
    · simp [domGet, hu]
    · simp only [List.map_cons, domGet, if_neg hu]
      exact ih v (List.mem_cons.mp hv |>.resolve_left (fun h => hu h.symm))

theorem domGet_initDoms (p : Puzzle) (v : Slot) (hv : v ∈ p.vars) :
    domGet (initDoms p) v = p.words :=
  domGet_map_const p.words p.vars v hv

theorem domGet_nodeCons (d : Domains) (v : Slot) :
    domGet (nodeCons d) v =
      (domGet d v).filter (fun w => w.length = v.len) := by
  induction d with
  | nil => rfl
  | cons e rest ih =>
    by_cases he : e.1 = v
    · simp [nodeCons, domGet, he]
    · simp only [nodeCons, List.map_cons, domGet, if_neg he]
      simpa [nodeCons] using ih

theorem selectGo_empty_isSome (p : Puzzle) (d : Domains) :
    ∀ (L : List Slot) (chosen : Option Slot) (best bn : Nat),
      chosen.isSome ∨ L ≠ [] →
      (selectGo p d [] L chosen best bn).isSome := by
  intro L
  induction L with
  | nil =>
    intro chosen best bn h
    rcases h with h | h
    · exact h
    · exact absurd rfl h
  | cons i rest ih =>
    intro chosen best bn h
    simp only [selectGo]
    have hskip : ((!(([] : Assign)).isEmpty) && truthyAt [] i) = false := rfl
    rw [hskip]
    simp only [Bool.false_eq_true, if_false]
    cases chosen with
    | none => exact ih _ _ _ (Or.inl rfl)
    | some c0 =>
      dsimp only
      by_cases h2 : (domGet d i).length < best
      · rw [if_pos h2]; exact ih _ _ _ (Or.inl rfl)
      · rw [if_neg h2]
        by_cases h3 : (domGet d i).length = best
        · rw [if_pos h3]
          by_cases h4 : bn < (neighbors p i).length
          · rw [if_pos h4]; exact ih _ _ _ (Or.inl rfl)
          · rw [if_neg h4]; exact ih _ _ _ (Or.inl rfl)
        · rw [if_neg h3]; exact ih _ _ _ (Or.inl rfl)

theorem selectGo_empty_min (p : Puzzle) (d : Domains) :
    ∀ (L : List Slot) (chosen : Option Slot) (best bn : Nat) (c : Slot),
      (∀ c0, chosen = some c0 → (domGet d c0).length = best) →
      selectGo p d [] L chosen best bn = some c →
      (∀ u ∈ L, (domGet d c).length ≤ (domGet d u).length) ∧
      (∀ c0, chosen = some c0 → (domGet d c).length ≤ best) := by
  intro L
  induction L with
  | nil =>
    intro chosen best bn c hinv h
    simp only [selectGo] at h
    refine ⟨fun u hu => absurd hu (List.not_mem_nil u), ?_⟩
    intro c0 hc0
    rw [hc0] at h
    have : c0 = c := Option.some.inj h
    rw [← this, hinv c0 hc0]
  | cons i rest ih =>
    intro chosen best bn c hinv h
    simp only [selectGo] at h
    have hskip : ((!(([] : Assign)).isEmpty) && truthyAt [] i) = false := rfl
    rw [hskip] at h
    simp only [Bool.false_eq_true, if_false] at h
    cases chosen with
    | none =>
      dsimp only at h
      have hres := ih (some i) (domGet d i).length (neighbors p i).length c
        (fun c0 hc0 => by rw [← Option.some.inj hc0]) h
      refine ⟨?_, fun c0 hc0 => by cases hc0⟩
      intro u hu
      rcases List.mem_cons.mp hu with h1 | h1
      · rw [h1]
        exact hres.2 i rfl
      · exact hres.1 u h1
    | some c0 =>
      dsimp only at h
      have hbest : (domGet d c0).length = best := hinv c0 rfl
      by_cases h2 : (domGet d i).length < best
      · rw [if_pos h2] at h
        have hres := ih (some i) (domGet d i).length (neighbors p i).length c
          (fun c1 hc1 => by rw [← Option.some.inj hc1]) h
        refine ⟨?_, ?_⟩
        · intro u hu
          rcases List.mem_cons.mp hu with h1 | h1
          · rw [h1]
            exact hres.2 i rfl
          · exact hres.1 u h1
        · intro c1 hc1
          have := hres.2 i rfl
          omega
      · rw [if_neg h2] at h
        by_cases h3 : (domGet d i).length = best
        · rw [if_pos h3] at h
          by_cases h4 : bn < (neighbors p i).length
          · rw [if_pos h4] at h
            have hres := ih (some i) best bn c
              (fun c1 hc1 => by rw [← Option.some.inj hc1]; exact h3) h
            refine ⟨?_, ?_⟩
            · intro u hu
              rcases List.mem_cons.mp hu with h1 | h1
              · rw [h1]
                have := hres.2 i rfl
                omega
              · exact hres.1 u h1
            · intro c1 hc1
              exact hres.2 i rfl
          · rw [if_neg h4] at h
            have hres := ih (some c0) best bn c
              (fun c1 hc1 => by rw [← Option.some.inj hc1]; exact hbest) h
            refine ⟨?_, ?_⟩
            · intro u hu
              rcases List.mem_cons.mp hu with h1 | h1
              · rw [h1]
                have := hres.2 c0 rfl
                omega
              · exact hres.1 u h1
            · intro c1 hc1
              exact hres.2 c0 rfl
        · rw [if_neg h3] at h
          have hres := ih (some c0) best bn c
            (fun c1 hc1 => by rw [← Option.some.inj hc1]; exact hbest) h
          refine ⟨?_, ?_⟩
          · intro u hu
            rcases List.mem_cons.mp hu with h1 | h1
            · rw [h1]
              have := hres.2 c0 rfl
              omega
            · exact hres.1 u h1
          · intro c1 hc1
            exact hres.2 c0 rfl

theorem orderDV_empty (p : Puzzle) (var : Slot) (a : Assign) (d : Domains)
    (h : domGet d var = []) : (orderDV p var a d).1 = [] := by
  simp [orderDV, h, odvGo, sortPairs]

/-- C9 as amended: if the vocabulary has no word whose length matches
some slot, then after node consistency that slot's domain is empty, it
stays empty through the full arc-consistency pass, and `solve` returns
`None` — via `backtrack`, which is still invoked, selects a variable of
(empty) minimal domain, gets an empty candidate ordering, and
immediately reports no solution. -/
theorem solve_no_length_match_returns_none (p : Puzzle) (v : Slot)
    (hv : v ∈ p.vars) (hlen : ∀ w ∈ p.words, w.length ≠ v.len) :
    solve p = some BTRes.noSol := by
  have hvne : p.vars ≠ [] := fun h => by rw [h] at hv; cases hv
  have h0 : domGet (nodeCons (initDoms p)) v = [] := by
    rw [domGet_nodeCons, domGet_initDoms p v hv]
    rw [List.filter_eq_nil_iff]
    intro w hw
    simpa using hlen w hw
  have h1 : domGet (ac3Run p (allArcs p) (nodeCons (initDoms p)) false).2 v
      = [] := by
    have := ac3Run_subset p (allArcs p) (nodeCons (initDoms p)) false v
    rw [h0] at this
    exact List.subset_nil.mp this
  unfold solve
  have hcomp : completeFn p ([] : Assign) = false := by
    unfold completeFn
    have : ([] : Assign).length ≠ p.vars.length := by
      simp only [List.length_nil]
      intro hh
      exact hvne (List.length_eq_zero.mp hh.symm)
    rw [if_neg this]
  have hsel := selectGo_empty_isSome p
    (ac3Run p (allArcs p) (nodeCons (initDoms p)) false).2 p.vars none 0 0
    (Or.inr hvne)
  obtain ⟨c, hc⟩ := Option.isSome_iff_exists.mp hsel
  have hmin := (selectGo_empty_min p
    (ac3Run p (allArcs p) (nodeCons (initDoms p)) false).2 p.vars none 0 0 c
    (fun c0 hc0 => by cases hc0) hc).1 v hv
  rw [h1] at hmin
  have hcdom : domGet (ac3Run p (allArcs p) (nodeCons (initDoms p)) false).2 c
      = [] := by
    simp only [List.length_nil, Nat.le_zero] at hmin
    exact List.length_eq_zero.mp hmin
  match hn : p.vars.length with
  | 0 => exact absurd (List.length_eq_zero.mp hn) hvne
  | Nat.succ k =>
    simp only [btGo]
    rw [hcomp]
    simp only [Bool.false_eq_true, if_false]
    have hcsel : selectUV p
        (ac3Run p (allArcs p) (nodeCons (initDoms p)) false).2 [] = some c :=
      hc
    rw [hcsel]
    dsimp only
    rw [orderDV_empty p c []
      (ac3Run p (allArcs p) (nodeCons (initDoms p)) false).2 hcdom]
    rfl

/-- Witness for `solve_no_length_match_returns_none` at `P9`. -/
theorem solve_no_length_match_returns_none_witness :
    solve P9 = some BTRes.noSol :=
  solve_no_length_match_returns_none P9 w9 (by decide) (by decide)
